import Mathlib

/-!
Shallow embedding of the LRU cache from `src/cache.rs` and `src/lru_cache.rs`.
Machine details modelled: `HashMap<K, usize>` as an association list with
unique keys, `Vec<Entry<K,V>>` as a `List`, panics (out-of-bounds vector
indexing) as `Option.none` results.  Every operation returns `none` exactly
when the Rust code would panic.
-/

namespace LruSpec

/-- Model of `HashMap::get`: first binding of the key, if any. -/
def mapGet {K : Type} [DecidableEq K] (m : List (K × Nat)) (k : K) : Option Nat :=
  match m with
  | [] => none
  | (k', i) :: rest => if k' = k then some i else mapGet rest k

/-- Model of `HashMap::insert`: replace the binding of `k` if present, else append. -/
def mapInsert {K : Type} [DecidableEq K] (m : List (K × Nat)) (k : K) (i : Nat) :
    List (K × Nat) :=
  match m with
  | [] => [(k, i)]
  | (k', i') :: rest =>
      if k' = k then (k, i) :: rest else (k', i') :: mapInsert rest k i

/-- Model of `HashMap::remove`: drop the binding of `k` (the first one; bindings
are unique in a well-formed map). -/
def mapRemove {K : Type} [DecidableEq K] (m : List (K × Nat)) (k : K) : List (K × Nat) :=
  match m with
  | [] => []
  | (k', i') :: rest => if k' = k then rest else (k', i') :: mapRemove rest k

/-- Model of the Rust statement `xs[i].field = v` (a read-modify-write of the
vector cell `i`): `none` when `i` is out of bounds, which in Rust is a panic. -/
def modifyIdx {α : Type} (xs : List α) (i : Nat) (f : α → α) : Option (List α) :=
  match xs[i]? with
  | none => none
  | some x => some (xs.set i (f x))

/-- Model of `if o.is_some() \x7b xs[o.unwrap()].field = v \x7d`. -/
def patch {α : Type} (xs : List α) (o : Option Nat) (f : α → α) : Option (List α) :=
  match o with
  | none => some xs
  | some i => modifyIdx xs i f

/-- `Entry<K, V>` from `src/cache.rs`. -/
structure Entry (K V : Type) where
  key : K
  value : Option V
  prev : Option Nat
  next : Option Nat
deriving DecidableEq

/-- `Cache<K, V>` from `src/cache.rs`. -/
structure Cache (K V : Type) where
  entries : List (Entry K V)
  map : List (K × Nat)
  first : Option Nat
  last : Option Nat
  max_size : Nat
deriving DecidableEq

variable {K V : Type}

/-- `Cache::with_capacity` from `src/cache.rs`. -/
def with_capacity (max_size : Nat) : Cache K V :=
  { entries := [], map := [], first := none, last := none, max_size := max_size }

/-- `Cache::move_to_front` from `src/cache.rs`, lines 167-195. -/
def move_to_front (s : Cache K V) (index : Nat) : Option (Cache K V) :=
  if some index = s.first then some s
  else
    (s.entries[index]?).bind (fun e =>
    (patch s.entries e.prev (fun x => { x with next := e.next })).bind (fun es1 =>
    (patch es1 e.next (fun x => { x with prev := e.prev })).bind (fun es2 =>
    (patch es2 s.first (fun x => { x with prev := some index })).bind (fun es3 =>
    (modifyIdx es3 index (fun x => { x with prev := none, next := s.first })).map (fun es4 =>
      { s with entries := es4, first := some index,
               last := if some index = s.last then e.prev else s.last })))))

/-- `Cache::remove_last` from `src/cache.rs`, lines 150-165. -/
def remove_last [DecidableEq K] (s : Cache K V) : Option (Cache K V) :=
  match s.last with
  | none => some s
  | some last_index =>
    (s.entries[last_index]?).bind (fun e =>
      match e.prev with
      | some new_last =>
        (modifyIdx s.entries new_last (fun x => { x with next := none })).map (fun es1 =>
          { s with entries := es1, map := mapRemove s.map e.key, last := some new_last })
      | none =>
        some { s with map := mapRemove s.map e.key, last := none, first := none })

/-- `Cache::get` from `src/cache.rs`, lines 68-78.  Returns the looked-up value
together with the cache after the promoting relink. -/
def get [DecidableEq K] (s : Cache K V) (key : K) : Option (Option V × Cache K V) :=
  match mapGet s.map key with
  | none => some (none, s)
  | some index =>
    (move_to_front s index).bind (fun s1 =>
      (s1.entries[index]?).map (fun e => (e.value, s1)))

/-- `Cache::put` from `src/cache.rs`, lines 83-117.  Note that the fresh
entry's `next` field is seeded with the pre-eviction `first`, and that the
overflow check compares the arena length (not the live count) with `max_size`,
both exactly as in the source. -/
def put [DecidableEq K] (s : Cache K V) (key : K) (value : V) : Option (Cache K V) :=
  match mapGet s.map key with
  | some index =>
    (modifyIdx s.entries index (fun x => { x with value := some value })).bind (fun es1 =>
      move_to_front { s with entries := es1 } index)
  | none =>
    let new_entry : Entry K V :=
      { key := key, value := some value, prev := none, next := s.first }
    let new_index := s.entries.length
    (if s.max_size ≤ s.entries.length then remove_last s else some s).bind (fun s1 =>
      let es2 := s1.entries ++ [new_entry]
      let map2 := mapInsert s1.map key new_index
      match s1.first with
      | none =>
        some { s1 with entries := es2, map := map2,
                       first := some new_index, last := some new_index }
      | some old_first =>
        (modifyIdx es2 new_index (fun x => { x with next := some old_first })).bind (fun es3 =>
        (modifyIdx es3 old_first (fun x => { x with prev := some new_index })).map (fun es4 =>
          { s1 with entries := es4, map := map2, first := some new_index })))

/-- `Cache::invalidate` from `src/cache.rs`, lines 122-147. -/
def invalidate [DecidableEq K] (s : Cache K V) (key : K) : Option (Cache K V) :=
  match mapGet s.map key with
  | none => some s
  | some index =>
    (s.entries[index]?).bind (fun e =>
      (patch s.entries e.prev (fun x => { x with next := e.next })).bind (fun es1 =>
      (patch es1 e.next (fun x => { x with prev := e.prev })).bind (fun es2 =>
      (modifyIdx es2 index (fun x => { x with value := none })).map (fun es3 =>
        { s with entries := es3, map := mapRemove s.map key,
                 first := if some index = s.first then e.next else s.first,
                 last := if some index = s.last then e.prev else s.last }))))

/-- One public API call. -/
inductive Op (K V : Type) where
  | get (key : K)
  | put (key : K) (value : V)
  | invalidate (key : K)

/-- One public API call applied to a cache state; `none` means the call panics. -/
def step [DecidableEq K] (s : Cache K V) : Op K V → Option (Cache K V)
  | Op.get k => (get s k).map Prod.snd
  | Op.put k v => put s k v
  | Op.invalidate k => invalidate s k

/-- Run a sequence of public API calls; `none` as soon as one panics. -/
def run [DecidableEq K] (s : Cache K V) : List (Op K V) → Option (Cache K V)
  | [] => some s
  | op :: ops => (step s op).bind (fun s1 => run s1 ops)

/-- Run a sequence of `put` calls. -/
def runPuts [DecidableEq K] (s : Cache K V) (kvs : List (K × V)) : Option (Cache K V) :=
  run s (kvs.map (fun p => Op.put p.1 p.2))

/-- Whether a call is an `invalidate`. -/
def isInval : Op K V → Bool
  | Op.invalidate _ => true
  | _ => false

/-- Fuel-bounded forward walk of the recency list following `next` links. -/
def walkFwd (es : List (Entry K V)) : Option Nat → Nat → List Nat
  | _, 0 => []
  | none, _ => []
  | some i, fuel + 1 =>
    i :: (match es[i]? with
          | none => []
          | some e => walkFwd es e.next fuel)

/-- An optional slot reference is in bounds for an arena of length `n`. -/
def boundOk (n : Nat) : Option Nat → Bool
  | none => true
  | some i => decide (i < n)

/-- The neighbor links of an entry are in bounds. -/
def entryOk (n : Nat) (e : Entry K V) : Bool :=
  boundOk n e.prev && boundOk n e.next

/-- Basic well-formedness: every stored slot reference (head, tail, index
values, neighbor links) is inside the arena, and the index has unique keys and
unique slot values.  Every state reachable through the public API satisfies
this. -/
def WF [DecidableEq K] (s : Cache K V) : Bool :=
  boundOk s.entries.length s.first &&
  boundOk s.entries.length s.last &&
  s.map.all (fun p => decide (p.2 < s.entries.length)) &&
  s.entries.all (entryOk s.entries.length) &&
  decide (s.map.map Prod.fst).Nodup &&
  decide (s.map.map Prod.snd).Nodup

/-- The index after `remove_last` has run on a well-formed state: unchanged if
the list is empty, otherwise the tail entry's key is removed. -/
def evictedMap [DecidableEq K] (s : Cache K V) : List (K × Nat) :=
  match s.last with
  | none => s.map
  | some t =>
    match s.entries[t]? with
    | none => s.map
    | some e => mapRemove s.map e.key

/-- `L` is a run of slots linked by `prev` references: the first element's
`prev` is `p`, and each later element's `prev` is its predecessor in `L`. -/
def prevChain (es : List (Entry K V)) : Option Nat → List Nat → Prop
  | _, [] => True
  | p, i :: rest =>
      (∃ e, es[i]? = some e ∧ e.prev = p) ∧ prevChain es (some i) rest

/-- The reference incoming to a run that follows `A` (the last element of `A`,
or `p` when `A` is empty). -/
def lastRef (p : Option Nat) (A : List Nat) : Option Nat :=
  match A.getLast? with
  | none => p
  | some a => some a

/-- Consecutive elements of `L` are linked by `next` references; the last
element's `next` is unconstrained (the source can leave a stale pointer
there). -/
def nextAdj (es : List (Entry K V)) : List Nat → Prop
  | [] => True
  | [_] => True
  | a :: b :: rest =>
      (∃ e, es[a]? = some e ∧ e.next = some b) ∧ nextAdj es (b :: rest)

/-- The stale `next` of the last element of `L`, when present, points outside
of `L` (at an evicted slot), so following it never re-enters the live list. -/
def tailJunk (es : List (Entry K V)) (L : List Nat) : Prop :=
  ∀ t, L.getLast? = some t → ∀ e, es[t]? = some e → ∀ j, e.next = some j → j ∉ L

/-- Invariant of states reached from `with_capacity` (capacity at least 1) by
`get` and `put` calls: `L` lists the live slots from most- to least-recently
used.  The `prev` chain is exact; the `next` chain is exact except at the
tail, whose `next` may be a stale pointer at an evicted slot — the source
seeds a fresh entry's `next` with the pre-eviction head and never resets it
when the eviction has emptied the list. -/
def INVp [DecidableEq K] (s : Cache K V) : Prop :=
  1 ≤ s.max_size ∧ WF s = true ∧
  ∃ L : List Nat,
    L.Nodup ∧
    (∀ i ∈ L, i < s.entries.length) ∧
    s.first = L.head? ∧
    s.last = L.getLast? ∧
    prevChain s.entries none L ∧
    nextAdj s.entries L ∧
    tailJunk s.entries L ∧
    (∀ i ∈ L, ∃ e, s.entries[i]? = some e ∧ mapGet s.map e.key = some i) ∧
    (∀ p ∈ s.map, p.2 ∈ L ∧ ∃ e, s.entries[p.2]? = some e ∧ e.key = p.1) ∧
    s.map.length = L.length ∧
    L.length ≤ s.max_size ∧
    (s.entries.length = L.length ∨ L.length = s.max_size)

end LruSpec

namespace LRU

/-- `Entry<K, V>` from `src/lru_cache.rs`. -/
structure Entry (K V : Type) where
  key : K
  value : Option V
  prev : Option Nat
  next : Option Nat
deriving DecidableEq

/-- `LRUCache<K, V>` from `src/lru_cache.rs`. -/
structure LRUCache (K V : Type) where
  entries : List (Entry K V)
  map : List (K × Nat)
  first : Option Nat
  last : Option Nat
  max_size : Nat
deriving DecidableEq

variable {K V : Type}

/-- `LRUCache::with_capacity` from `src/lru_cache.rs` (trait `Cache` impl). -/
def with_capacity (max_size : Nat) : LRUCache K V :=
  { entries := [], map := [], first := none, last := none, max_size := max_size }

/-- `LRUCache::_move_to_front` from `src/lru_cache.rs`, lines 162-190. -/
def _move_to_front (s : LRUCache K V) (index : Nat) : Option (LRUCache K V) :=
  if some index = s.first then some s
  else
    (s.entries[index]?).bind (fun e =>
    (LruSpec.patch s.entries e.prev (fun x => { x with next := e.next })).bind (fun es1 =>
    (LruSpec.patch es1 e.next (fun x => { x with prev := e.prev })).bind (fun es2 =>
    (LruSpec.patch es2 s.first (fun x => { x with prev := some index })).bind (fun es3 =>
    (LruSpec.modifyIdx es3 index (fun x => { x with prev := none, next := s.first })).map
      (fun es4 =>
        { s with entries := es4, first := some index,
                 last := if some index = s.last then e.prev else s.last })))))

/-- `LRUCache::_remove_last` from `src/lru_cache.rs`, lines 145-160. -/
def _remove_last [DecidableEq K] (s : LRUCache K V) : Option (LRUCache K V) :=
  match s.last with
  | none => some s
  | some last_index =>
    (s.entries[last_index]?).bind (fun e =>
      match e.prev with
      | some new_last =>
        (LruSpec.modifyIdx s.entries new_last (fun x => { x with next := none })).map
          (fun es1 =>
            { s with entries := es1, map := LruSpec.mapRemove s.map e.key,
                     last := some new_last })
      | none =>
        some { s with map := LruSpec.mapRemove s.map e.key, last := none, first := none })

/-- `LRUCache::get` from `src/lru_cache.rs`, lines 65-75. -/
def get [DecidableEq K] (s : LRUCache K V) (key : K) : Option (Option V × LRUCache K V) :=
  match LruSpec.mapGet s.map key with
  | none => some (none, s)
  | some index =>
    (_move_to_front s index).bind (fun s1 =>
      (s1.entries[index]?).map (fun e => (e.value, s1)))

/-- `LRUCache::put` from `src/lru_cache.rs`, lines 77-111. -/
def put [DecidableEq K] (s : LRUCache K V) (key : K) (value : V) : Option (LRUCache K V) :=
  match LruSpec.mapGet s.map key with
  | some index =>
    (LruSpec.modifyIdx s.entries index (fun x => { x with value := some value })).bind
      (fun es1 => _move_to_front { s with entries := es1 } index)
  | none =>
    let new_entry : Entry K V :=
      { key := key, value := some value, prev := none, next := s.first }
    let new_index := s.entries.length
    (if s.max_size ≤ s.entries.length then _remove_last s else some s).bind (fun s1 =>
      let es2 := s1.entries ++ [new_entry]
      let map2 := LruSpec.mapInsert s1.map key new_index
      match s1.first with
      | none =>
        some { s1 with entries := es2, map := map2,
                       first := some new_index, last := some new_index }
      | some old_first =>
        (LruSpec.modifyIdx es2 new_index (fun x => { x with next := some old_first })).bind
          (fun es3 =>
            (LruSpec.modifyIdx es3 old_first (fun x => { x with prev := some new_index })).map
              (fun es4 =>
                { s1 with entries := es4, map := map2, first := some new_index })))

/-- `LRUCache::invalidate` from `src/lru_cache.rs`, lines 113-138. -/
def invalidate [DecidableEq K] (s : LRUCache K V) (key : K) : Option (LRUCache K V) :=
  match LruSpec.mapGet s.map key with
  | none => some s
  | some index =>
    (s.entries[index]?).bind (fun e =>
      (LruSpec.patch s.entries e.prev (fun x => { x with next := e.next })).bind (fun es1 =>
      (LruSpec.patch es1 e.next (fun x => { x with prev := e.prev })).bind (fun es2 =>
      (LruSpec.modifyIdx es2 index (fun x => { x with value := none })).map (fun es3 =>
        { s with entries := es3, map := LruSpec.mapRemove s.map key,
                 first := if some index = s.first then e.next else s.first,
                 last := if some index = s.last then e.prev else s.last }))))

/-- One public API call applied to an `LRUCache`; `none` means the call panics. -/
def step [DecidableEq K] (s : LRUCache K V) : LruSpec.Op K V → Option (LRUCache K V)
  | LruSpec.Op.get k => (get s k).map Prod.snd
  | LruSpec.Op.put k v => put s k v
  | LruSpec.Op.invalidate k => invalidate s k

/-- Run a sequence of public API calls on an `LRUCache`. -/
def run [DecidableEq K] (s : LRUCache K V) : List (LruSpec.Op K V) → Option (LRUCache K V)
  | [] => some s
  | op :: ops => (step s op).bind (fun s1 => run s1 ops)

end LRU

namespace LruSpec

variable {K V : Type}

/-- Field-for-field translation of a `cache.rs` entry to a `lru_cache.rs` entry
(the two `Entry` structs are identical). -/
def e2l (e : Entry K V) : LRU.Entry K V :=
  { key := e.key, value := e.value, prev := e.prev, next := e.next }

/-- Field-for-field translation of a `Cache` state to an `LRUCache` state (the
two structs are identical). -/
def c2l (s : Cache K V) : LRU.LRUCache K V :=
  { entries := s.entries.map e2l, map := s.map, first := s.first,
    last := s.last, max_size := s.max_size }

/-- The observable content of an arena slot: its key and value. -/
def keyVal (e : Entry K V) : K × Option V :=
  (e.key, e.value)

/-- A small concrete cache state (one live entry, capacity 1) used to
instantiate the general theorems. -/
def sampleCache : Cache Nat Nat :=
  { entries := [{ key := 1, value := some 10, prev := none, next := none }]
    map := [(1, 0)]
    first := some 0
    last := some 0
    max_size := 1 }

/-- A concrete cache state with two live entries (head slot 1, tail slot 0)
used to instantiate the general theorems. -/
def sampleCache2 : Cache Nat Nat :=
  { entries := [{ key := 1, value := some 10, prev := some 1, next := none },
                { key := 2, value := some 20, prev := none, next := some 0 }]
    map := [(1, 0), (2, 1)]
    first := some 1
    last := some 0
    max_size := 3 }

section MapLemmas

variable [DecidableEq K]

theorem mapGet_mapInsert_self (m : List (K × Nat)) (k : K) (i : Nat) :
    mapGet (mapInsert m k i) k = some i := by
  induction m with
  | nil => simp [mapGet, mapInsert]
  | cons p rest ih =>
      obtain ⟨a, b⟩ := p
      by_cases ha : a = k
      · simp [mapGet, mapInsert, ha]
      · simp [mapGet, mapInsert, ha, ih]

theorem mapGet_mapInsert_ne (m : List (K × Nat)) {j k : K} (h : j ≠ k) (i : Nat) :
    mapGet (mapInsert m k i) j = mapGet m j := by
  have hkj : ¬k = j := fun hh => h hh.symm
  induction m with
  | nil => simp [mapGet, mapInsert, hkj]
  | cons p rest ih =>
      obtain ⟨a, b⟩ := p
      by_cases ha : a = k
      · subst ha
        simp [mapGet, mapInsert, hkj]
      · by_cases haj : a = j
        · simp [mapGet, mapInsert, ha, haj, hkj, h]
        · simp [mapGet, mapInsert, ha, haj, ih]

theorem mapGet_mapRemove_ne (m : List (K × Nat)) {j k : K} (h : j ≠ k) :
    mapGet (mapRemove m k) j = mapGet m j := by
  have hkj : ¬k = j := fun hh => h hh.symm
  induction m with
  | nil => simp [mapRemove]
  | cons p rest ih =>
      obtain ⟨a, b⟩ := p
      by_cases ha : a = k
      · subst ha
        simp [mapGet, mapRemove, hkj]
      · by_cases haj : a = j
        · simp [mapGet, mapRemove, ha, haj, hkj, h]
        · simp [mapGet, mapRemove, ha, haj, ih]

theorem mapGet_eq_none_iff (m : List (K × Nat)) (k : K) :
    mapGet m k = none ↔ ∀ p ∈ m, p.1 ≠ k := by
  induction m with
  | nil => simp [mapGet]
  | cons p rest ih =>
      obtain ⟨a, b⟩ := p
      by_cases ha : a = k
      · subst ha
        simp [mapGet]
      · simp [mapGet, ha, ih]

theorem mapGet_mapRemove_self (m : List (K × Nat)) (k : K)
    (h : (m.map Prod.fst).Nodup) : mapGet (mapRemove m k) k = none := by
  induction m with
  | nil => simp [mapRemove, mapGet]
  | cons p rest ih =>
      obtain ⟨a, b⟩ := p
      simp only [List.map_cons, List.nodup_cons] at h
      by_cases ha : a = k
      · subst ha
        simp only [mapRemove, if_pos rfl]
        rw [mapGet_eq_none_iff]
        intro q hq hq1
        exact h.1 (hq1 ▸ List.mem_map_of_mem Prod.fst hq)
      · simp [mapRemove, mapGet, ha, ih h.2]

theorem mem_of_mapGet_eq_some {m : List (K × Nat)} {k : K} {i : Nat}
    (h : mapGet m k = some i) : (k, i) ∈ m := by
  induction m with
  | nil => simp [mapGet] at h
  | cons p rest ih =>
      obtain ⟨a, b⟩ := p
      by_cases ha : a = k
      · subst ha
        simp [mapGet] at h
        subst h
        exact List.mem_cons_self ..
      · simp only [mapGet, if_neg ha] at h
        exact List.mem_cons_of_mem _ (ih h)

theorem mem_mapInsert {m : List (K × Nat)} {k : K} {i : Nat} {p : K × Nat}
    (h : p ∈ mapInsert m k i) : p = (k, i) ∨ p ∈ m := by
  induction m with
  | nil => simpa [mapInsert] using h
  | cons q rest ih =>
      obtain ⟨a, b⟩ := q
      by_cases ha : a = k
      · simp only [mapInsert, if_pos ha, List.mem_cons] at h
        rcases h with h | h
        · exact Or.inl h
        · exact Or.inr (List.mem_cons_of_mem _ h)
      · simp only [mapInsert, if_neg ha, List.mem_cons] at h
        rcases h with h | h
        · subst h
          exact Or.inr (List.mem_cons_self ..)
        · rcases ih h with h' | h'
          · exact Or.inl h'
          · exact Or.inr (List.mem_cons_of_mem _ h')

theorem mapRemove_sublist (m : List (K × Nat)) (k : K) :
    (mapRemove m k).Sublist m := by
  induction m with
  | nil => simp [mapRemove]
  | cons p rest ih =>
      obtain ⟨a, b⟩ := p
      by_cases ha : a = k
      · simp only [mapRemove, if_pos ha]
        exact List.Sublist.cons _ (List.Sublist.refl rest)
      · simp only [mapRemove, if_neg ha]
        exact List.Sublist.cons₂ _ ih

theorem mem_mapRemove {m : List (K × Nat)} {k : K} {p : K × Nat}
    (h : p ∈ mapRemove m k) : p ∈ m :=
  (mapRemove_sublist m k).mem h

theorem length_mapInsert_fresh {m : List (K × Nat)} {k : K} (i : Nat)
    (h : mapGet m k = none) : (mapInsert m k i).length = m.length + 1 := by
  induction m with
  | nil => simp [mapInsert]
  | cons p rest ih =>
      obtain ⟨a, b⟩ := p
      by_cases ha : a = k
      · subst ha
        simp [mapGet] at h
      · simp only [mapGet, if_neg ha] at h
        simp [mapInsert, ha, ih h]

theorem length_mapRemove_found {m : List (K × Nat)} {k : K} {i : Nat}
    (h : mapGet m k = some i) : (mapRemove m k).length + 1 = m.length := by
  induction m with
  | nil => simp [mapGet] at h
  | cons p rest ih =>
      obtain ⟨a, b⟩ := p
      by_cases ha : a = k
      · simp [mapRemove, ha]
      · simp only [mapGet, if_neg ha] at h
        simp [mapRemove, ha, ih h]

theorem mapGet_mapRemove_of_none {m : List (K × Nat)} {j k : K}
    (h : mapGet m j = none) : mapGet (mapRemove m k) j = none := by
  rw [mapGet_eq_none_iff] at h ⊢
  exact fun p hp => h p (mem_mapRemove hp)

theorem nodup_keys_mapInsert {m : List (K × Nat)} (k : K) (i : Nat)
    (h : (m.map Prod.fst).Nodup) : ((mapInsert m k i).map Prod.fst).Nodup := by
  induction m with
  | nil => simp [mapInsert]
  | cons p rest ih =>
      obtain ⟨a, b⟩ := p
      simp only [List.map_cons, List.nodup_cons] at h
      by_cases ha : a = k
      · subst ha
        have hrw : mapInsert ((a, b) :: rest) a i = (a, i) :: rest := by
          simp [mapInsert]
        rw [hrw]
        simp only [List.map_cons, List.nodup_cons]
        exact h
      · simp only [mapInsert, if_neg ha, List.map_cons, List.nodup_cons]
        refine ⟨fun hmem' => ?_, ih h.2⟩
        obtain ⟨q, hq, hq1⟩ := List.mem_map.mp hmem'
        rcases mem_mapInsert hq with rfl | hq'
        · exact ha hq1.symm
        · exact h.1 (hq1 ▸ List.mem_map_of_mem Prod.fst hq')

theorem nodup_vals_mapInsert {m : List (K × Nat)} (k : K) {i : Nat}
    (hfresh : ∀ p ∈ m, p.2 ≠ i) (h : (m.map Prod.snd).Nodup) :
    ((mapInsert m k i).map Prod.snd).Nodup := by
  induction m with
  | nil => simp [mapInsert]
  | cons p rest ih =>
      obtain ⟨a, b⟩ := p
      simp only [List.map_cons, List.nodup_cons] at h
      by_cases ha : a = k
      · subst ha
        have hrw : mapInsert ((a, b) :: rest) a i = (a, i) :: rest := by
          simp [mapInsert]
        rw [hrw]
        simp only [List.map_cons, List.nodup_cons]
        refine ⟨fun hmem' => ?_, h.2⟩
        obtain ⟨q, hq, hq2⟩ := List.mem_map.mp hmem'
        exact hfresh q (List.mem_cons_of_mem _ hq) hq2
      · have hrest : ∀ q ∈ rest, q.2 ≠ i :=
          fun q hq => hfresh q (List.mem_cons_of_mem _ hq)
        simp only [mapInsert, if_neg ha, List.map_cons, List.nodup_cons]
        refine ⟨fun hmem' => ?_, ih hrest h.2⟩
        obtain ⟨q, hq, hq2⟩ := List.mem_map.mp hmem'
        rcases mem_mapInsert hq with rfl | hq'
        · exact hfresh (a, b) (List.mem_cons_self ..) hq2.symm
        · exact h.1 (hq2 ▸ List.mem_map_of_mem Prod.snd hq')

theorem nodup_keys_mapRemove {m : List (K × Nat)} (k : K)
    (h : (m.map Prod.fst).Nodup) : ((mapRemove m k).map Prod.fst).Nodup :=
  h.sublist ((mapRemove_sublist m k).map Prod.fst)

theorem nodup_vals_mapRemove {m : List (K × Nat)} (k : K)
    (h : (m.map Prod.snd).Nodup) : ((mapRemove m k).map Prod.snd).Nodup :=
  h.sublist ((mapRemove_sublist m k).map Prod.snd)

end MapLemmas

section ArenaLemmas

variable {α : Type}

theorem modifyIdx_total {xs : List α} {i : Nat} (f : α → α) (h : i < xs.length) :
    ∃ ys, modifyIdx xs i f = some ys := by
  refine ⟨xs.set i (f (xs.get ⟨i, h⟩)), ?_⟩
  simp [modifyIdx, List.getElem?_eq_getElem h]

theorem modifyIdx_oob {xs : List α} {i : Nat} (f : α → α) (h : xs.length ≤ i) :
    modifyIdx xs i f = none := by
  simp [modifyIdx, List.getElem?_eq_none h]

theorem length_modifyIdx {xs ys : List α} {i : Nat} {f : α → α}
    (h : modifyIdx xs i f = some ys) : ys.length = xs.length := by
  unfold modifyIdx at h
  cases hx : xs[i]? with
  | none => simp [hx] at h
  | some x =>
      simp only [hx] at h
      obtain rfl : xs.set i (f x) = ys := Option.some.injEq .. ▸ h
      exact List.length_set ..

theorem getElem?_modifyIdx {xs ys : List α} {i : Nat} {f : α → α}
    (h : modifyIdx xs i f = some ys) (j : Nat) :
    ys[j]? = if i = j then (xs[j]?).map f else xs[j]? := by
  unfold modifyIdx at h
  cases hx : xs[i]? with
  | none => simp [hx] at h
  | some x =>
      simp only [hx] at h
      obtain rfl : xs.set i (f x) = ys := Option.some.injEq .. ▸ h
      by_cases hij : i = j
      · subst hij
        have hi : i < xs.length := (List.getElem?_eq_some.mp hx).1
        simp [List.getElem?_set_eq_of_lt _ hi, hx]
      · simp [List.getElem?_set_ne hij, hij]

theorem mem_modifyIdx {xs ys : List α} {i : Nat} {f : α → α}
    (h : modifyIdx xs i f = some ys) : ∀ y ∈ ys, y ∈ xs ∨ ∃ x ∈ xs, y = f x := by
  unfold modifyIdx at h
  cases hx : xs[i]? with
  | none => simp [hx] at h
  | some x =>
      simp only [hx] at h
      obtain rfl : xs.set i (f x) = ys := Option.some.injEq .. ▸ h
      intro y hy
      rcases List.mem_or_eq_of_mem_set hy with hy' | rfl
      · exact Or.inl hy'
      · exact Or.inr ⟨x, List.getElem?_mem hx, rfl⟩

theorem patch_total {xs : List α} {o : Option Nat} (f : α → α)
    (h : boundOk xs.length o = true) : ∃ ys, patch xs o f = some ys := by
  cases o with
  | none => exact ⟨xs, rfl⟩
  | some i =>
      simp only [boundOk, decide_eq_true_eq] at h
      obtain ⟨ys, hys⟩ := modifyIdx_total f h
      exact ⟨ys, hys⟩

theorem length_patch {xs ys : List α} {o : Option Nat} {f : α → α}
    (h : patch xs o f = some ys) : ys.length = xs.length := by
  cases o with
  | none =>
      obtain rfl : xs = ys := Option.some.injEq .. ▸ h
      rfl
  | some i => exact length_modifyIdx h

theorem getElem?_patch {xs ys : List α} {o : Option Nat} {f : α → α}
    (h : patch xs o f = some ys) (j : Nat) :
    ys[j]? = if o = some j then (xs[j]?).map f else xs[j]? := by
  cases o with
  | none =>
      obtain rfl : xs = ys := Option.some.injEq .. ▸ h
      simp
  | some i =>
      have := getElem?_modifyIdx h j
      by_cases hij : i = j
      · subst hij
        simpa using this
      · simpa [hij, Option.some.injEq] using this

theorem mem_patch {xs ys : List α} {o : Option Nat} {f : α → α}
    (h : patch xs o f = some ys) : ∀ y ∈ ys, y ∈ xs ∨ ∃ x ∈ xs, y = f x := by
  cases o with
  | none =>
      obtain rfl : xs = ys := Option.some.injEq .. ▸ h
      exact fun y hy => Or.inl hy
  | some i => exact mem_modifyIdx h

end ArenaLemmas

section WFLemmas

variable [DecidableEq K]

theorem WF_iff {s : Cache K V} :
    WF s = true ↔
      (boundOk s.entries.length s.first = true ∧
       boundOk s.entries.length s.last = true ∧
       (∀ p ∈ s.map, p.2 < s.entries.length) ∧
       (∀ e ∈ s.entries, entryOk s.entries.length e = true) ∧
       (s.map.map Prod.fst).Nodup ∧
       (s.map.map Prod.snd).Nodup) := by
  simp only [WF, Bool.and_eq_true, List.all_eq_true, decide_eq_true_eq, and_assoc]

theorem boundOk_some {n i : Nat} {o : Option Nat} (h : boundOk n o = true)
    (ho : o = some i) : i < n := by
  subst ho
  simpa [boundOk] using h

theorem boundOk_of_lt {n i : Nat} (h : i < n) : boundOk n (some i) = true := by
  simpa [boundOk] using h

theorem entryOk_parts {n : Nat} {e : Entry K V} (h : entryOk n e = true) :
    boundOk n e.prev = true ∧ boundOk n e.next = true := by
  simpa [entryOk, Bool.and_eq_true] using h

theorem entryOk_intro {n : Nat} {e : Entry K V} (h1 : boundOk n e.prev = true)
    (h2 : boundOk n e.next = true) : entryOk n e = true := by
  simp [entryOk, h1, h2]

theorem wf_entry_ok {s : Cache K V} (hwf : WF s = true) {i : Nat} {e : Entry K V}
    (he : s.entries[i]? = some e) : entryOk s.entries.length e = true :=
  (WF_iff.mp hwf).2.2.2.1 e (List.getElem?_mem he)

theorem wf_map_lt {s : Cache K V} (hwf : WF s = true) {k : K} {i : Nat}
    (h : mapGet s.map k = some i) : i < s.entries.length :=
  (WF_iff.mp hwf).2.2.1 (k, i) (mem_of_mapGet_eq_some h)

theorem wf_first_lt {s : Cache K V} (hwf : WF s = true) {i : Nat}
    (h : s.first = some i) : i < s.entries.length :=
  boundOk_some (WF_iff.mp hwf).1 h

theorem wf_last_lt {s : Cache K V} (hwf : WF s = true) {i : Nat}
    (h : s.last = some i) : i < s.entries.length :=
  boundOk_some (WF_iff.mp hwf).2.1 h

theorem keyVal_patch {xs ys : List (Entry K V)} {o : Option Nat} {f : Entry K V → Entry K V}
    (h : patch xs o f = some ys) (hf : ∀ x, keyVal (f x) = keyVal x) :
    ∀ j : Nat, (ys[j]?).map keyVal = (xs[j]?).map keyVal := by
  intro j
  rw [getElem?_patch h j]
  by_cases ho : o = some j
  · have hcomp : keyVal ∘ f = keyVal := funext hf
    simp only [if_pos ho, Option.map_map, hcomp]
  · simp [ho]

theorem keyVal_modifyIdx {xs ys : List (Entry K V)} {i : Nat} {f : Entry K V → Entry K V}
    (h : modifyIdx xs i f = some ys) (hf : ∀ x, keyVal (f x) = keyVal x) :
    ∀ j : Nat, (ys[j]?).map keyVal = (xs[j]?).map keyVal := by
  intro j
  rw [getElem?_modifyIdx h j]
  by_cases hij : i = j
  · have hcomp : keyVal ∘ f = keyVal := funext hf
    simp only [if_pos hij, Option.map_map, hcomp]
  · simp [hij]

theorem entryOk_with_next {n : Nat} {x : Entry K V} {v : Option Nat}
    (hx : entryOk n x = true) (hv : boundOk n v = true) :
    entryOk n { x with next := v } = true := by
  simp only [entryOk, Bool.and_eq_true] at hx ⊢
  exact ⟨hx.1, hv⟩

theorem entryOk_with_prev {n : Nat} {x : Entry K V} {v : Option Nat}
    (hx : entryOk n x = true) (hv : boundOk n v = true) :
    entryOk n { x with prev := v } = true := by
  simp only [entryOk, Bool.and_eq_true] at hx ⊢
  exact ⟨hv, hx.2⟩

theorem entryOk_with_both {n : Nat} {x : Entry K V} {p q : Option Nat}
    (hp : boundOk n p = true) (hq : boundOk n q = true) :
    entryOk n { x with prev := p, next := q } = true := by
  simp only [entryOk, Bool.and_eq_true]
  exact ⟨hp, hq⟩

theorem entryOk_with_value {n : Nat} {x : Entry K V} {v : Option V}
    (hx : entryOk n x = true) : entryOk n { x with value := v } = true := by
  simpa only [entryOk, Bool.and_eq_true] using hx

theorem entryOk_patch {n : Nat} {xs ys : List (Entry K V)} {o : Option Nat}
    {f : Entry K V → Entry K V} (h : patch xs o f = some ys)
    (hxs : ∀ x ∈ xs, entryOk n x = true)
    (hf : ∀ x, entryOk n x = true → entryOk n (f x) = true) :
    ∀ y ∈ ys, entryOk n y = true := by
  intro y hy
  rcases mem_patch h y hy with hy' | ⟨x, hx, rfl⟩
  · exact hxs y hy'
  · exact hf x (hxs x hx)

theorem entryOk_modifyIdx {n : Nat} {xs ys : List (Entry K V)} {i : Nat}
    {f : Entry K V → Entry K V} (h : modifyIdx xs i f = some ys)
    (hxs : ∀ x ∈ xs, entryOk n x = true)
    (hf : ∀ x, entryOk n x = true → entryOk n (f x) = true) :
    ∀ y ∈ ys, entryOk n y = true := by
  intro y hy
  rcases mem_modifyIdx h y hy with hy' | ⟨x, hx, rfl⟩
  · exact hxs y hy'
  · exact hf x (hxs x hx)

end WFLemmas

section OpSpecs

variable [DecidableEq K]

theorem move_to_front_spec {s : Cache K V} {index : Nat}
    (hwf : WF s = true) (hidx : index < s.entries.length) :
    ∃ s', move_to_front s index = some s' ∧
      WF s' = true ∧
      s'.map = s.map ∧
      s'.max_size = s.max_size ∧
      s'.entries.length = s.entries.length ∧
      s'.first = some index ∧
      (∀ j : Nat, (s'.entries[j]?).map keyVal = (s.entries[j]?).map keyVal) := by
  by_cases hfirst : some index = s.first
  · refine ⟨s, ?_, hwf, rfl, rfl, rfl, hfirst.symm, fun j => rfl⟩
    simp [move_to_front, hfirst]
  · obtain ⟨e, he⟩ : ∃ e, s.entries[index]? = some e := by
      cases hx : s.entries[index]? with
      | none => exact absurd (List.getElem?_eq_none_iff.mp hx) (Nat.not_le_of_lt hidx)
      | some x => exact ⟨x, rfl⟩
    have heOk := entryOk_parts (wf_entry_ok hwf he)
    have hall := (WF_iff.mp hwf).2.2.2.1
    obtain ⟨es1, h1⟩ :=
      patch_total (fun x => { x with next := e.next }) heOk.1
    have l1 : es1.length = s.entries.length := length_patch h1
    obtain ⟨es2, h2⟩ := patch_total (fun x => { x with prev := e.prev })
      (show boundOk es1.length e.next = true by rw [l1]; exact heOk.2)
    have l2 : es2.length = s.entries.length := (length_patch h2).trans l1
    obtain ⟨es3, h3⟩ := patch_total (fun x => { x with prev := some index })
      (show boundOk es2.length s.first = true by rw [l2]; exact (WF_iff.mp hwf).1)
    have l3 : es3.length = s.entries.length := (length_patch h3).trans l2
    obtain ⟨es4, h4⟩ := modifyIdx_total
      (fun x => { x with prev := none, next := s.first })
      (show index < es3.length by rw [l3]; exact hidx)
    have l4 : es4.length = s.entries.length := (length_modifyIdx h4).trans l3
    have hrun : move_to_front s index = some
        { s with
          entries := es4
          first := some index
          last := if some index = s.last then e.prev else s.last } := by
      unfold move_to_front
      rw [if_neg hfirst, he, Option.some_bind, h1, Option.some_bind, h2,
        Option.some_bind, h3, Option.some_bind, h4, Option.map_some']
    refine ⟨_, hrun, ?_, rfl, rfl, l4, rfl, ?_⟩
    · -- well-formedness of the result
      rw [WF_iff]
      refine ⟨?_, ?_, ?_, ?_, ?_, ?_⟩
      · simpa [l4] using boundOk_of_lt hidx
      · by_cases hl : some index = s.last
        · simpa [hl, l4] using heOk.1
        · simp only [if_neg hl]
          simpa [l4] using (WF_iff.mp hwf).2.1
      · intro p hp
        simpa [l4] using (WF_iff.mp hwf).2.2.1 p hp
      · have s1 : ∀ y ∈ es1, entryOk s.entries.length y = true :=
          entryOk_patch h1 hall (fun x hx => entryOk_with_next hx heOk.2)
        have s2 : ∀ y ∈ es2, entryOk s.entries.length y = true :=
          entryOk_patch h2 s1 (fun x hx => entryOk_with_prev hx heOk.1)
        have s3 : ∀ y ∈ es3, entryOk s.entries.length y = true :=
          entryOk_patch h3 s2 (fun x hx => entryOk_with_prev hx (boundOk_of_lt hidx))
        have s4 : ∀ y ∈ es4, entryOk s.entries.length y = true :=
          entryOk_modifyIdx h4 s3 (fun x _ => entryOk_with_both rfl (WF_iff.mp hwf).1)
        intro y hy
        simpa [l4] using s4 y hy
      · exact (WF_iff.mp hwf).2.2.2.2.1
      · exact (WF_iff.mp hwf).2.2.2.2.2
    · -- keys and values of every slot are untouched
      intro j
      have k1 := keyVal_patch h1 (fun x => rfl) j
      have k2 := keyVal_patch h2 (fun x => rfl) j
      have k3 := keyVal_patch h3 (fun x => rfl) j
      have k4 := keyVal_modifyIdx h4 (fun x => rfl) j
      exact k4.trans (k3.trans (k2.trans k1))

theorem boundOk_mono {n m : Nat} {o : Option Nat} (hnm : n ≤ m)
    (h : boundOk n o = true) : boundOk m o = true := by
  cases o with
  | none => rfl
  | some i =>
      simp only [boundOk, decide_eq_true_eq] at h ⊢
      exact Nat.lt_of_lt_of_le h hnm

theorem entryOk_mono {n m : Nat} {e : Entry K V} (hnm : n ≤ m)
    (h : entryOk n e = true) : entryOk m e = true := by
  obtain ⟨h1, h2⟩ := entryOk_parts h
  exact entryOk_intro (boundOk_mono hnm h1) (boundOk_mono hnm h2)

theorem mapGet_evictedMap_of_none {s : Cache K V} {j : K}
    (h : mapGet s.map j = none) : mapGet (evictedMap s) j = none := by
  cases hl : s.last with
  | none => simpa [evictedMap, hl] using h
  | some t =>
      cases he : s.entries[t]? with
      | none => simpa [evictedMap, hl, he] using h
      | some e =>
          simp only [evictedMap, hl, he]
          exact mapGet_mapRemove_of_none h

theorem mem_evictedMap {s : Cache K V} {p : K × Nat} (h : p ∈ evictedMap s) :
    p ∈ s.map := by
  cases hl : s.last with
  | none =>
      simp only [evictedMap, hl] at h
      exact h
  | some t =>
      cases he : s.entries[t]? with
      | none =>
          simp only [evictedMap, hl, he] at h
          exact h
      | some e =>
          simp only [evictedMap, hl, he] at h
          exact mem_mapRemove h

theorem getElem?_some_of_lt {xs : List (Entry K V)} {i : Nat} (h : i < xs.length) :
    ∃ e, xs[i]? = some e := by
  cases hx : xs[i]? with
  | none => exact absurd (List.getElem?_eq_none_iff.mp hx) (Nat.not_le_of_lt h)
  | some x => exact ⟨x, rfl⟩

theorem remove_last_spec {s : Cache K V} (hwf : WF s = true) :
    ∃ s', remove_last s = some s' ∧ WF s' = true ∧
      s'.max_size = s.max_size ∧
      s'.entries.length = s.entries.length ∧
      s'.map = evictedMap s ∧
      (s'.first = s.first ∨ s'.first = none) ∧
      (∀ j : Nat, (s'.entries[j]?).map keyVal = (s.entries[j]?).map keyVal) := by
  have hwfp := WF_iff.mp hwf
  cases hl : s.last with
  | none =>
      refine ⟨s, ?_, hwf, rfl, rfl, ?_, Or.inl rfl, fun j => rfl⟩
      · simp [remove_last, hl]
      · simp [evictedMap, hl]
  | some t =>
      have ht : t < s.entries.length := wf_last_lt hwf hl
      obtain ⟨e, he⟩ := getElem?_some_of_lt ht
      have heOk := entryOk_parts (wf_entry_ok hwf he)
      have hmapRem : evictedMap s = mapRemove s.map e.key := by
        simp [evictedMap, hl, he]
      have hmapB : ∀ p ∈ mapRemove s.map e.key, p.2 < s.entries.length :=
        fun p hp => hwfp.2.2.1 p (mem_mapRemove hp)
      have hkeys := nodup_keys_mapRemove e.key hwfp.2.2.2.2.1
      have hvals := nodup_vals_mapRemove e.key hwfp.2.2.2.2.2
      cases hp : e.prev with
      | some new_last =>
          have hnl : new_last < s.entries.length := boundOk_some heOk.1 hp
          obtain ⟨es1, h1⟩ := modifyIdx_total (fun x => { x with next := none }) hnl
          have l1 : es1.length = s.entries.length := length_modifyIdx h1
          have hrun : remove_last s = some
              { s with
                entries := es1
                map := mapRemove s.map e.key
                last := some new_last } := by
            simp only [remove_last, hl, he, Option.some_bind, hp, h1, Option.map_some']
          refine ⟨_, hrun, ?_, rfl, l1, hmapRem.symm, Or.inl rfl,
            keyVal_modifyIdx h1 (fun x => rfl)⟩
          rw [WF_iff]
          refine ⟨?_, ?_, ?_, ?_, hkeys, hvals⟩
          · simpa [l1] using hwfp.1
          · simpa [l1] using boundOk_of_lt hnl
          · intro p hp'
            simpa [l1] using hmapB p hp'
          · intro y hy
            rw [l1]
            exact entryOk_modifyIdx h1 hwfp.2.2.2.1
              (fun x hx => entryOk_with_next hx rfl) y hy
      | none =>
          have hrun : remove_last s = some
              { s with
                map := mapRemove s.map e.key
                last := none
                first := none } := by
            simp only [remove_last, hl, he, Option.some_bind, hp]
          refine ⟨_, hrun, ?_, rfl, rfl, hmapRem.symm, Or.inr rfl, fun j => rfl⟩
          rw [WF_iff]
          exact ⟨rfl, rfl, hmapB, hwfp.2.2.2.1, hkeys, hvals⟩

theorem put_spec_new {s : Cache K V} {k : K} (v : V) (hwf : WF s = true)
    (hnew : mapGet s.map k = none) :
    ∃ s', put s k v = some s' ∧ WF s' = true ∧
      s'.max_size = s.max_size ∧
      s'.entries.length = s.entries.length + 1 ∧
      s'.first = some s.entries.length ∧
      s'.map = mapInsert (if s.max_size ≤ s.entries.length then evictedMap s else s.map)
        k s.entries.length ∧
      (s'.entries[s.entries.length]?).map keyVal = some (k, some v) ∧
      (∀ j : Nat, j ≠ s.entries.length →
        (s'.entries[j]?).map keyVal = (s.entries[j]?).map keyVal) := by
  obtain ⟨s1, hS1, hwf1, hmax1, hlen1, hmap1, hfirst1, hkv1⟩ :
      ∃ s1, (if s.max_size ≤ s.entries.length then remove_last s else some s) = some s1 ∧
        WF s1 = true ∧ s1.max_size = s.max_size ∧
        s1.entries.length = s.entries.length ∧
        s1.map = (if s.max_size ≤ s.entries.length then evictedMap s else s.map) ∧
        (s1.first = s.first ∨ s1.first = none) ∧
        (∀ j : Nat, (s1.entries[j]?).map keyVal = (s.entries[j]?).map keyVal) := by
    by_cases hcap : s.max_size ≤ s.entries.length
    · simp only [if_pos hcap]
      obtain ⟨s1, ha, hb, hc, hd, hee, hff, hgg⟩ := remove_last_spec hwf
      exact ⟨s1, ha, hb, hc, hd, hee, hff, hgg⟩
    · simp only [if_neg hcap]
      exact ⟨s, rfl, hwf, rfl, rfl, rfl, Or.inl rfl, fun j => rfl⟩
  have hnew1 : mapGet s1.map k = none := by
    rw [hmap1]
    by_cases hcap : s.max_size ≤ s.entries.length
    · rw [if_pos hcap]
      exact mapGet_evictedMap_of_none hnew
    · rw [if_neg hcap]
      exact hnew
  have hwf1p := WF_iff.mp hwf1
  have hmapB : ∀ p ∈ mapInsert s1.map k s.entries.length, p.2 < s.entries.length + 1 := by
    intro p hp
    rcases mem_mapInsert hp with rfl | hp'
    · exact Nat.lt_succ_self ..
    · exact Nat.lt_succ_of_lt (hlen1 ▸ hwf1p.2.2.1 p hp')
  have hkeysNd : ((mapInsert s1.map k s.entries.length).map Prod.fst).Nodup :=
    nodup_keys_mapInsert k s.entries.length hwf1p.2.2.2.2.1
  have hvalsNd : ((mapInsert s1.map k s.entries.length).map Prod.snd).Nodup :=
    nodup_vals_mapInsert k
      (fun p hp => Nat.ne_of_lt (hlen1 ▸ hwf1p.2.2.1 p hp)) hwf1p.2.2.2.2.2
  have hfirstB : boundOk s.entries.length s.first = true := (WF_iff.mp hwf).1
  have hkvOther : ∀ j : Nat, j ≠ s.entries.length →
      ((s1.entries ++
        [{ key := k, value := some v, prev := none, next := s.first }])[j]?).map keyVal
        = (s.entries[j]?).map keyVal := by
    intro j hj
    by_cases hjlt : j < s.entries.length
    · rw [List.getElem?_append_left (hlen1.symm ▸ hjlt)]
      exact hkv1 j
    · have hge : s.entries.length + 1 ≤ j :=
        Nat.succ_le_of_lt (Nat.lt_of_le_of_ne (Nat.le_of_not_lt hjlt) (Ne.symm hj))
      rw [List.getElem?_eq_none (by simpa [hlen1] using hge),
        List.getElem?_eq_none (Nat.le_of_succ_le hge)]
  have hkvNew : ((s1.entries ++
      [{ key := k, value := some v, prev := none, next := s.first }])[s.entries.length]?)
      = some { key := k, value := some v, prev := none, next := s.first } := by
    have := List.getElem?_concat_length s1.entries
      ({ key := k, value := some v, prev := none, next := s.first } : Entry K V)
    rwa [hlen1] at this
  have hentB : ∀ x ∈ s1.entries ++
      [{ key := k, value := some v, prev := none, next := s.first }],
      entryOk (s.entries.length + 1) x = true := by
    intro x hx
    rcases List.mem_append.mp hx with hx' | hx'
    · exact entryOk_mono (by rw [hlen1]; exact Nat.le_succ ..)
        (hwf1p.2.2.2.1 x hx')
    · have : x = { key := k, value := some v, prev := none, next := s.first } :=
        List.mem_singleton.mp hx'
      subst this
      exact entryOk_intro rfl (boundOk_mono (Nat.le_succ ..) hfirstB)
  cases hf1 : s1.first with
  | none =>
      have hrun : put s k v = some
          { s1 with
            entries := s1.entries ++
              [{ key := k, value := some v, prev := none, next := s.first }]
            map := mapInsert s1.map k s.entries.length
            first := some s.entries.length
            last := some s.entries.length } := by
        simp only [put, hnew, hS1, Option.some_bind, hf1]
      refine ⟨_, hrun, ?_, hmax1, ?_, rfl, by rw [hmap1], ?_, hkvOther⟩
      · rw [WF_iff]
        refine ⟨?_, ?_, ?_, ?_, hkeysNd, hvalsNd⟩
        · simpa [hlen1] using boundOk_of_lt (Nat.lt_succ_self s.entries.length)
        · simpa [hlen1] using boundOk_of_lt (Nat.lt_succ_self s.entries.length)
        · intro p hp
          simpa [hlen1] using hmapB p hp
        · intro x hx
          have hlist : (s1.entries ++
              [({ key := k, value := some v, prev := none, next := s.first } : Entry K V)]).length
              = s.entries.length + 1 := by
            simp [hlen1]
          rw [hlist]
          exact hentB x hx
      · simp [hlen1]
      · rw [hkvNew]
        rfl
  | some old_first =>
      have hof : old_first < s.entries.length := hlen1 ▸ wf_first_lt hwf1 hf1
      have hlen2 : (s1.entries ++
          [({ key := k, value := some v, prev := none, next := s.first } : Entry K V)]).length
          = s.entries.length + 1 := by
        simp [hlen1]
      obtain ⟨es3, h3⟩ := modifyIdx_total
        (fun x => { x with next := some old_first })
        (show s.entries.length < (s1.entries ++
          [({ key := k, value := some v, prev := none, next := s.first } : Entry K V)]).length by
          rw [hlen2]; exact Nat.lt_succ_self ..)
      have hlen3 : es3.length = s.entries.length + 1 := (length_modifyIdx h3).trans hlen2
      obtain ⟨es4, h4⟩ := modifyIdx_total (fun x => { x with prev := some s.entries.length })
        (show old_first < es3.length by rw [hlen3]; exact Nat.lt_succ_of_lt hof)
      have hlen4 : es4.length = s.entries.length + 1 := (length_modifyIdx h4).trans hlen3
      have hrun : put s k v = some
          { s1 with
            entries := es4
            map := mapInsert s1.map k s.entries.length
            first := some s.entries.length } := by
        simp only [put, hnew, hS1, Option.some_bind, hf1, h3, Option.some_bind, h4,
          Option.map_some']
      have k4 := keyVal_modifyIdx h4 (fun x => rfl)
      have k3 := keyVal_modifyIdx h3 (fun x => rfl)
      refine ⟨_, hrun, ?_, hmax1, hlen4, rfl, by rw [hmap1], ?_, ?_⟩
      · rw [WF_iff]
        refine ⟨?_, ?_, ?_, ?_, hkeysNd, hvalsNd⟩
        · simpa [hlen4] using boundOk_of_lt (Nat.lt_succ_self s.entries.length)
        · rw [hlen4]
          exact boundOk_mono (by rw [hlen1]; exact Nat.le_succ ..) hwf1p.2.1
        · intro p hp
          simpa [hlen4] using hmapB p hp
        · intro x hx
          rw [hlen4]
          refine entryOk_modifyIdx h4 ?_ ?_ x hx
          · intro y hy
            refine entryOk_modifyIdx h3 ?_ ?_ y hy
            · exact hentB
            · exact fun z hz => entryOk_with_next hz
                (boundOk_of_lt (Nat.lt_succ_of_lt hof))
          · exact fun z hz => entryOk_with_prev hz
              (boundOk_of_lt (Nat.lt_succ_self ..))
      · rw [k4 _, k3 _, hkvNew]
        rfl
      · intro j hj
        rw [k4 j, k3 j]
        exact hkvOther j hj

theorem put_spec_update {s : Cache K V} {k : K} {index : Nat} (v : V)
    (hwf : WF s = true) (hidx : mapGet s.map k = some index) :
    ∃ s', put s k v = some s' ∧ WF s' = true ∧
      s'.map = s.map ∧ s'.max_size = s.max_size ∧
      s'.entries.length = s.entries.length ∧
      s'.first = some index ∧
      (s'.entries[index]?).map keyVal = (s.entries[index]?).map (fun e => (e.key, some v)) ∧
      (∀ j : Nat, j ≠ index → (s'.entries[j]?).map keyVal = (s.entries[j]?).map keyVal) := by
  have hilt : index < s.entries.length := wf_map_lt hwf hidx
  obtain ⟨es1, h1⟩ := modifyIdx_total (fun x => { x with value := some v }) hilt
  have l1 : es1.length = s.entries.length := length_modifyIdx h1
  have hwfm : WF { s with entries := es1 } = true := by
    rw [WF_iff]
    have hwfp := WF_iff.mp hwf
    refine ⟨?_, ?_, ?_, ?_, hwfp.2.2.2.2.1, hwfp.2.2.2.2.2⟩
    · simpa [l1] using hwfp.1
    · simpa [l1] using hwfp.2.1
    · intro p hp
      simpa [l1] using hwfp.2.2.1 p hp
    · intro x hx
      rw [show ({ s with entries := es1 } : Cache K V).entries.length = s.entries.length
        from l1]
      exact entryOk_modifyIdx h1 hwfp.2.2.2.1 (fun z hz => entryOk_with_value hz) x hx
  obtain ⟨s', hmtf, hwf', hmap', hmax', hlen', hfirst', hkv'⟩ :=
    move_to_front_spec hwfm (show index < es1.length by rw [l1]; exact hilt)
  have hrun : put s k v = some s' := by
    simp only [put, hidx, h1, Option.some_bind, hmtf]
  refine ⟨s', hrun, hwf', hmap', hmax', hlen'.trans l1, hfirst', ?_, ?_⟩
  · rw [hkv' index, getElem?_modifyIdx h1 index, if_pos rfl, Option.map_map]
    rfl
  · intro j hj
    rw [hkv' j, getElem?_modifyIdx h1 j, if_neg (fun hh => hj hh.symm)]

theorem get_spec {s : Cache K V} (k : K) (hwf : WF s = true) :
    ∃ r s', get s k = some (r, s') ∧ WF s' = true ∧
      s'.map = s.map ∧ s'.max_size = s.max_size ∧
      s'.entries.length = s.entries.length ∧
      (∀ j : Nat, (s'.entries[j]?).map keyVal = (s.entries[j]?).map keyVal) ∧
      (mapGet s.map k = none → r = none ∧ s' = s) ∧
      (∀ index : Nat, mapGet s.map k = some index →
        s'.first = some index ∧ ∃ e, s.entries[index]? = some e ∧ r = e.value) := by
  cases hidx : mapGet s.map k with
  | none =>
      refine ⟨none, s, ?_, hwf, rfl, rfl, rfl, fun j => rfl, fun _ => ⟨rfl, rfl⟩, ?_⟩
      · simp [get, hidx]
      · intro index h
        exact Option.noConfusion h
  | some index =>
      have hilt := wf_map_lt hwf hidx
      obtain ⟨s1, hmtf, hwf1, hmap1, hmax1, hlen1, hfirst1, hkv1⟩ :=
        move_to_front_spec hwf hilt
      obtain ⟨e, he⟩ := getElem?_some_of_lt hilt
      have h1 : (s1.entries[index]?).map keyVal = some (keyVal e) := by
        rw [hkv1 index, he]
        rfl
      obtain ⟨e1, he1, hkve⟩ : ∃ e1, s1.entries[index]? = some e1 ∧ keyVal e1 = keyVal e := by
        cases hx : s1.entries[index]? with
        | none =>
            rw [hx] at h1
            cases h1
        | some y =>
            rw [hx] at h1
            exact ⟨y, rfl, Option.some.inj h1⟩
      have hval : e1.value = e.value := congrArg Prod.snd hkve
      refine ⟨e1.value, s1, ?_, hwf1, hmap1, hmax1, hlen1, hkv1, ?_, ?_⟩
      · simp only [get, hidx, hmtf, Option.some_bind, he1, Option.map_some']
      · intro h
        exact Option.noConfusion h
      · intro index' h
        obtain rfl : index = index' := Option.some.inj h
        exact ⟨hfirst1, e, he, hval⟩

theorem invalidate_spec_absent {s : Cache K V} {k : K}
    (h : mapGet s.map k = none) : invalidate s k = some s := by
  simp [invalidate, h]

theorem invalidate_spec_present {s : Cache K V} {k : K} {index : Nat}
    (hwf : WF s = true) (hidx : mapGet s.map k = some index) :
    ∃ e s', s.entries[index]? = some e ∧ invalidate s k = some s' ∧ WF s' = true ∧
      s'.map = mapRemove s.map k ∧
      s'.max_size = s.max_size ∧
      s'.entries.length = s.entries.length ∧
      s'.first = (if some index = s.first then e.next else s.first) ∧
      s'.last = (if some index = s.last then e.prev else s.last) ∧
      (s'.entries[index]?).map keyVal = some (e.key, none) ∧
      (∀ j : Nat, j ≠ index → (s'.entries[j]?).map keyVal = (s.entries[j]?).map keyVal) ∧
      (∀ j : Nat, j ≠ index → some j ≠ e.prev → some j ≠ e.next →
        s'.entries[j]? = s.entries[j]?) ∧
      (∀ q : Nat, e.prev = some q → q ≠ index → e.prev ≠ e.next →
        s'.entries[q]? = (s.entries[q]?).map (fun x => { x with next := e.next })) ∧
      (∀ q : Nat, e.next = some q → q ≠ index → e.prev ≠ e.next →
        s'.entries[q]? = (s.entries[q]?).map (fun x => { x with prev := e.prev })) := by
  have hilt := wf_map_lt hwf hidx
  obtain ⟨e, he⟩ := getElem?_some_of_lt hilt
  have heOk := entryOk_parts (wf_entry_ok hwf he)
  have hwfp := WF_iff.mp hwf
  obtain ⟨es1, h1⟩ := patch_total (fun x => { x with next := e.next }) heOk.1
  have l1 : es1.length = s.entries.length := length_patch h1
  obtain ⟨es2, h2⟩ := patch_total (fun x => { x with prev := e.prev })
    (show boundOk es1.length e.next = true by rw [l1]; exact heOk.2)
  have l2 : es2.length = s.entries.length := (length_patch h2).trans l1
  obtain ⟨es3, h3⟩ := modifyIdx_total (fun x => { x with value := none })
    (show index < es2.length by rw [l2]; exact hilt)
  have l3 : es3.length = s.entries.length := (length_modifyIdx h3).trans l2
  have hrun : invalidate s k = some
      { s with
        entries := es3
        map := mapRemove s.map k
        first := if some index = s.first then e.next else s.first
        last := if some index = s.last then e.prev else s.last } := by
    simp only [invalidate, hidx, he, Option.some_bind, h1, h2, h3, Option.map_some']
  have p1 := getElem?_patch h1
  have p2 := getElem?_patch h2
  have p3 := getElem?_modifyIdx h3
  have kv1 := keyVal_patch h1 (fun x => rfl)
  have kv2 := keyVal_patch h2 (fun x => rfl)
  have kvOther : ∀ j : Nat, j ≠ index →
      (es3[j]?).map keyVal = (s.entries[j]?).map keyVal := by
    intro j hj
    rw [p3 j, if_neg (fun hh => hj hh.symm)]
    exact (kv2 j).trans (kv1 j)
  refine ⟨e, _, he, hrun, ?_, rfl, rfl, l3, rfl, rfl, ?_, kvOther, ?_, ?_, ?_⟩
  · rw [WF_iff]
    refine ⟨?_, ?_, ?_, ?_, nodup_keys_mapRemove k hwfp.2.2.2.2.1,
      nodup_vals_mapRemove k hwfp.2.2.2.2.2⟩
    · show boundOk es3.length (if some index = s.first then e.next else s.first) = true
      rw [l3]
      by_cases hfi : some index = s.first
      · simpa [hfi] using heOk.2
      · simpa [hfi] using hwfp.1
    · show boundOk es3.length (if some index = s.last then e.prev else s.last) = true
      rw [l3]
      by_cases hla : some index = s.last
      · simpa [hla] using heOk.1
      · simpa [hla] using hwfp.2.1
    · intro p hp
      show p.2 < es3.length
      rw [l3]
      exact hwfp.2.2.1 p (mem_mapRemove hp)
    · intro x hx
      show entryOk es3.length x = true
      rw [l3]
      refine entryOk_modifyIdx h3 ?_ (fun z hz => entryOk_with_value hz) x hx
      refine entryOk_patch h2 ?_ (fun z hz => entryOk_with_prev hz heOk.1)
      exact entryOk_patch h1 hwfp.2.2.2.1 (fun z hz => entryOk_with_next hz heOk.2)
  · -- the invalidated slot keeps its key and loses its value
    have hkv2 : (es2[index]?).map keyVal = some (keyVal e) := by
      rw [(kv2 index).trans (kv1 index), he]
      rfl
    obtain ⟨e2, he2, hkve2⟩ : ∃ e2, es2[index]? = some e2 ∧ keyVal e2 = keyVal e := by
      cases hx : es2[index]? with
      | none =>
          rw [hx] at hkv2
          cases hkv2
      | some y =>
          rw [hx] at hkv2
          exact ⟨y, rfl, Option.some.inj hkv2⟩
    rw [p3 index, if_pos rfl, he2, Option.map_some', Option.map_some']
    have : e2.key = e.key := congrArg Prod.fst hkve2
    rw [show keyVal { e2 with value := none } = (e2.key, none) from rfl, this]
  · -- slots other than the entry and its neighbors are untouched
    intro j hj hjp hjn
    rw [p3 j, if_neg (fun hh => hj hh.symm), p2 j, if_neg (fun hh => hjn hh.symm),
      p1 j, if_neg (fun hh => hjp hh.symm)]
  · -- the previous neighbor is repointed to the next neighbor
    intro q hq hqi hne
    rw [p3 q, if_neg (fun hh => hqi hh.symm), p2 q,
      if_neg (fun hh => hne (hq.trans hh.symm)), p1 q, if_pos hq]
  · -- the next neighbor is repointed to the previous neighbor
    intro q hq hqi hne
    rw [p3 q, if_neg (fun hh => hqi hh.symm), p2 q, if_pos hq, p1 q,
      if_neg (fun hh => hne (hh.trans hq.symm))]

theorem wf_with_capacity (n : Nat) : WF (with_capacity n : Cache K V) = true := by
  rw [WF_iff]
  exact ⟨rfl, rfl, fun p hp => absurd hp (List.not_mem_nil p),
    fun e he => absurd he (List.not_mem_nil e), List.nodup_nil, List.nodup_nil⟩

theorem step_total {s : Cache K V} (hwf : WF s = true) (op : Op K V) :
    ∃ s', step s op = some s' ∧ WF s' = true := by
  cases op with
  | get k =>
      obtain ⟨r, s', hg, hwf', _⟩ := get_spec k hwf
      refine ⟨s', ?_, hwf'⟩
      show (get s k).map Prod.snd = some s'
      rw [hg]
      rfl
  | put k v =>
      cases hidx : mapGet s.map k with
      | none =>
          obtain ⟨s', hp, hwf', _⟩ := put_spec_new v hwf hidx
          exact ⟨s', hp, hwf'⟩
      | some index =>
          obtain ⟨s', hp, hwf', _⟩ := put_spec_update v hwf hidx
          exact ⟨s', hp, hwf'⟩
  | invalidate k =>
      cases hidx : mapGet s.map k with
      | none => exact ⟨s, invalidate_spec_absent hidx, hwf⟩
      | some index =>
          obtain ⟨e, s', he, hi, hwf', _⟩ := invalidate_spec_present hwf hidx
          exact ⟨s', hi, hwf'⟩

theorem run_wf : ∀ (ops : List (Op K V)) (s : Cache K V), WF s = true →
    ∃ s', run s ops = some s' ∧ WF s' = true := by
  intro ops
  induction ops with
  | nil => exact fun s hwf => ⟨s, rfl, hwf⟩
  | cons op ops ih =>
      intro s hwf
      obtain ⟨s1, hstep, hwf1⟩ := step_total hwf op
      obtain ⟨s', hrun, hwf'⟩ := ih s1 hwf1
      refine ⟨s', ?_, hwf'⟩
      show (step s op).bind (fun s1 => run s1 ops) = some s'
      rw [hstep, Option.some_bind, hrun]

end OpSpecs

section ChainLemmas

theorem lastRef_none (A : List Nat) : lastRef none A = A.getLast? := by
  cases h : A.getLast? with
  | none => simp [lastRef, h]
  | some a => simp [lastRef, h]

theorem lastRef_cons (p : Option Nat) (a : Nat) (A : List Nat) :
    lastRef p (a :: A) = lastRef (some a) A := by
  cases A with
  | nil => simp [lastRef]
  | cons b A' =>
      obtain ⟨x, hx⟩ : ∃ x, (b :: A').getLast? = some x := by
        have hs := List.getLast?_isSome.mpr (List.cons_ne_nil b A')
        cases hh : (b :: A').getLast? with
        | none =>
            rw [hh] at hs
            cases hs
        | some y => exact ⟨y, rfl⟩
      unfold lastRef
      rw [List.getLast?_cons_cons, hx]

theorem mem_of_getLast?_eq_some {A : List Nat} {a : Nat} (h : A.getLast? = some a) :
    a ∈ A := by
  obtain ⟨hne, rfl⟩ := List.mem_getLast?_eq_getLast (Option.mem_def.mpr h)
  exact List.getLast_mem hne

theorem prevChain_append {es : List (Entry K V)} {p : Option Nat} {A B : List Nat} :
    prevChain es p (A ++ B) ↔ prevChain es p A ∧ prevChain es (lastRef p A) B := by
  induction A generalizing p with
  | nil => simp [prevChain, lastRef]
  | cons a A ih =>
      simp only [List.cons_append, prevChain, lastRef_cons, List.append_eq, and_assoc]
      exact and_congr_right (fun _ => ih)

theorem prevChain_congr {es es' : List (Entry K V)} {L : List Nat}
    (h : ∀ i ∈ L, (es'[i]?).map (fun e => e.prev) = (es[i]?).map (fun e => e.prev)) :
    ∀ {p : Option Nat}, prevChain es p L → prevChain es' p L := by
  induction L with
  | nil => exact fun _ => trivial
  | cons i rest ih =>
      intro p hc
      obtain ⟨⟨e, he, hpe⟩, hrest⟩ := hc
      have hi := h i (List.mem_cons_self ..)
      rw [he] at hi
      obtain ⟨e', he', hpe'⟩ : ∃ e', es'[i]? = some e' ∧ e'.prev = e.prev := by
        cases hx : es'[i]? with
        | none =>
            rw [hx] at hi
            cases hi
        | some y =>
            rw [hx] at hi
            exact ⟨y, rfl, Option.some.inj hi⟩
      exact ⟨⟨e', he', hpe'.trans hpe⟩,
        ih (fun j hj => h j (List.mem_cons_of_mem _ hj)) hrest⟩

theorem proj_patch {β : Type} (g : Entry K V → β) {xs ys : List (Entry K V)}
    {o : Option Nat} {f : Entry K V → Entry K V} (h : patch xs o f = some ys)
    (hf : ∀ x, g (f x) = g x) :
    ∀ j : Nat, (ys[j]?).map g = (xs[j]?).map g := by
  intro j
  rw [getElem?_patch h j]
  by_cases ho : o = some j
  · have hcomp : g ∘ f = g := funext hf
    simp only [if_pos ho, Option.map_map, hcomp]
  · simp [ho]

theorem proj_modifyIdx {β : Type} (g : Entry K V → β) {xs ys : List (Entry K V)}
    {i : Nat} {f : Entry K V → Entry K V} (h : modifyIdx xs i f = some ys)
    (hf : ∀ x, g (f x) = g x) :
    ∀ j : Nat, (ys[j]?).map g = (xs[j]?).map g := by
  intro j
  rw [getElem?_modifyIdx h j]
  by_cases hij : i = j
  · have hcomp : g ∘ f = g := funext hf
    simp only [if_pos hij, Option.map_map, hcomp]
  · simp [hij]

theorem nextAdj_of_append_left {es : List (Entry K V)} {B : List Nat} :
    ∀ {A : List Nat}, nextAdj es (A ++ B) → nextAdj es A := by
  intro A
  induction A with
  | nil => exact fun _ => trivial
  | cons a A ih =>
      cases A with
      | nil => exact fun _ => trivial
      | cons b A' =>
          intro h
          obtain ⟨hab, hrest⟩ := h
          exact ⟨hab, ih hrest⟩

theorem nextAdj_congr {es es' : List (Entry K V)} :
    ∀ {L : List Nat},
      (∀ i ∈ L.dropLast,
        (es'[i]?).map (fun e => e.next) = (es[i]?).map (fun e => e.next)) →
      nextAdj es L → nextAdj es' L := by
  intro L
  induction L with
  | nil => exact fun _ _ => trivial
  | cons a L ih =>
      cases L with
      | nil => exact fun _ _ => trivial
      | cons b rest =>
          intro h hadj
          obtain ⟨⟨e, he, hne⟩, hrest⟩ := hadj
          have ha := h a (by rw [List.dropLast_cons₂]; exact List.mem_cons_self ..)
          rw [he] at ha
          obtain ⟨e', he', hne'⟩ : ∃ e', es'[a]? = some e' ∧ e'.next = e.next := by
            cases hx : es'[a]? with
            | none =>
                rw [hx] at ha
                cases ha
            | some y =>
                rw [hx] at ha
                exact ⟨y, rfl, Option.some.inj ha⟩
          refine ⟨⟨e', he', hne'.trans hne⟩, ?_⟩
          exact ih (fun i hi => h i
            (by rw [List.dropLast_cons₂]; exact List.mem_cons_of_mem _ hi)) hrest

theorem nextAdj_of_cons {es : List (Entry K V)} {x : Nat} {M : List Nat}
    (h : nextAdj es (x :: M)) : nextAdj es M := by
  cases M with
  | nil => trivial
  | cons b rest => exact h.2

theorem nextAdj_of_append_right {es : List (Entry K V)} {C : List Nat} :
    ∀ {A : List Nat}, nextAdj es (A ++ C) → nextAdj es C := by
  intro A
  induction A with
  | nil => exact fun h => h
  | cons a A ih => exact fun h => ih (nextAdj_of_cons h)

theorem nextAdj_append {es : List (Entry K V)} {B : List Nat} (hB : nextAdj es B) :
    ∀ {A : List Nat}, nextAdj es A →
      (∀ a, A.getLast? = some a → ∀ b, B.head? = some b →
        ∃ e, es[a]? = some e ∧ e.next = some b) →
      nextAdj es (A ++ B) := by
  intro A
  induction A with
  | nil => exact fun _ _ => hB
  | cons a A ih =>
      intro hA hjn
      cases A with
      | nil =>
          cases B with
          | nil => trivial
          | cons b B2 => exact ⟨hjn a rfl b rfl, hB⟩
      | cons a2 A2 =>
          obtain ⟨hadj, hrest⟩ := hA
          refine ⟨hadj, ih hrest ?_⟩
          intro x hx b hb
          refine hjn x ?_ b hb
          rw [List.getLast?_cons_cons]
          exact hx

theorem getLast_not_mem_dropLast {A : List Nat} {a : Nat} (hnd : A.Nodup)
    (h : A.getLast? = some a) : a ∉ A.dropLast := by
  intro hmem
  have hsplit : A.dropLast ++ [a] = A :=
    List.dropLast_append_getLast? a (Option.mem_def.mpr h)
  rw [← hsplit, List.nodup_append] at hnd
  exact hnd.2.2 hmem (List.mem_singleton.mpr rfl)

theorem nodup_bounded_length_le {n : Nat} {l : List Nat} (h : l.Nodup)
    (hb : ∀ i ∈ l, i < n) : l.length ≤ n := by
  have h1 : l.toFinset ⊆ Finset.range n := by
    intro x hx
    exact Finset.mem_range.mpr (hb x (List.mem_toFinset.mp hx))
  have h2 := Finset.card_le_card h1
  rwa [List.toFinset_card_of_nodup h, Finset.card_range] at h2

end ChainLemmas

section CapacityInv

variable [DecidableEq K]

theorem invp_link {s s1 : Cache K V} {k : K} (v : V) {L1 : List Nat}
    (hwfs : WF s = true)
    (hnew : mapGet s.map k = none)
    (hS1 : (if s.max_size ≤ s.entries.length then remove_last s else some s) = some s1)
    (hmax1 : s1.max_size = s.max_size)
    (hlen1 : s1.entries.length = s.entries.length)
    (hcap1 : 1 ≤ s.max_size)
    (hwf1 : WF s1 = true)
    (hfresh : mapGet s1.map k = none)
    (hnd1 : L1.Nodup)
    (hbnd1 : ∀ i ∈ L1, i < s1.entries.length)
    (hhead1 : s1.first = L1.head?)
    (hlast1 : s1.last = L1.getLast?)
    (hchain1 : prevChain s1.entries none L1)
    (hnadj1 : nextAdj s1.entries L1)
    (hjunk1 : tailJunk s1.entries L1)
    (hfwd1 : ∀ i ∈ L1, ∃ e, s1.entries[i]? = some e ∧ mapGet s1.map e.key = some i)
    (hbwd1 : ∀ p ∈ s1.map, p.2 ∈ L1 ∧ ∃ e, s1.entries[p.2]? = some e ∧ e.key = p.1)
    (hlenm1 : s1.map.length = L1.length)
    (hlt1 : L1.length < s.max_size)
    (hor1 : s1.entries.length = L1.length ∨ L1.length + 1 = s.max_size) :
    ∃ s', put s k v = some s' ∧ s'.max_size = s.max_size ∧ INVp s' := by
  obtain ⟨sW, hputW, hwfW, _⟩ := put_spec_new v hwfs hnew
  cases hf1 : s1.first with
  | none =>
      have hL1nil : L1 = [] := by
        cases L1 with
        | nil => rfl
        | cons c cs =>
            rw [hhead1] at hf1
            cases hf1
      subst hL1nil
      have hrun : put s k v = some
          { s1 with
            entries := s1.entries ++
              [{ key := k, value := some v, prev := none, next := s.first }]
            map := mapInsert s1.map k s.entries.length
            first := some s.entries.length
            last := some s.entries.length } := by
        simp only [put, hnew, hS1, Option.some_bind, hf1]
      have hwf' : WF { s1 with
          entries := s1.entries ++
            [{ key := k, value := some v, prev := none, next := s.first }]
          map := mapInsert s1.map k s.entries.length
          first := some s.entries.length
          last := some s.entries.length } = true := by
        have hEq : sW = _ := Option.some.inj (hputW.symm.trans hrun)
        rw [← hEq]
        exact hwfW
      have hlook : (s1.entries ++
          [{ key := k, value := some v, prev := none, next := s.first }])[s.entries.length]?
          = some { key := k, value := some v, prev := none, next := s.first } := by
        have := List.getElem?_concat_length s1.entries
          ({ key := k, value := some v, prev := none, next := s.first } : Entry K V)
        rwa [hlen1] at this
      refine ⟨_, hrun, hmax1, hmax1 ▸ hcap1, hwf', [s.entries.length],
        List.nodup_singleton _,
        ?_, rfl, rfl, ⟨⟨_, hlook, rfl⟩, trivial⟩, trivial, ?_, ?_, ?_, ?_, ?_, ?_⟩
      · intro i hi
        rw [List.mem_singleton] at hi
        subst hi
        simp [hlen1]
      · -- the fresh entry's stale next points below the new slot
        intro t ht e he j hj hmem
        obtain rfl : s.entries.length = t := by
          simpa using ht
        rw [hlook] at he
        obtain rfl : e = { key := k, value := some v, prev := none, next := s.first } :=
          Option.some.inj he.symm
        have hjlt : j < s.entries.length :=
          wf_first_lt hwfs (by simpa using hj)
        rw [List.mem_singleton] at hmem
        exact Nat.lt_irrefl _ (hmem ▸ hjlt)
      · intro i hi
        rw [List.mem_singleton] at hi
        subst hi
        exact ⟨_, hlook, mapGet_mapInsert_self ..⟩
      · intro p hp
        rcases mem_mapInsert hp with rfl | hp'
        · exact ⟨List.mem_singleton.mpr rfl, _, hlook, rfl⟩
        · have hm0 : s1.map = [] := List.length_eq_zero.mp hlenm1
          rw [hm0] at hp'
          exact absurd hp' (List.not_mem_nil p)
      · rw [length_mapInsert_fresh s.entries.length hfresh, hlenm1]
        rfl
      · rw [hmax1]
        exact hcap1
      · rcases hor1 with h | h
        · left
          have : s1.entries.length = 0 := h
          simp [this]
        · right
          rw [hmax1]
          exact h
  | some x0 =>
      obtain ⟨rest, hL1⟩ : ∃ rest, L1 = x0 :: rest := by
        cases L1 with
        | nil =>
            rw [hhead1] at hf1
            cases hf1
        | cons c cs =>
            rw [hhead1] at hf1
            exact ⟨cs, by rw [Option.some.inj hf1]⟩
      subst hL1
      have hx0 : x0 < s1.entries.length := hbnd1 x0 (List.mem_cons_self ..)
      have hx0n : x0 < s.entries.length := hlen1 ▸ hx0
      have hlen2 : (s1.entries ++
          [({ key := k, value := some v, prev := none, next := s.first } : Entry K V)]).length
          = s.entries.length + 1 := by
        simp [hlen1]
      obtain ⟨es3, h3⟩ := modifyIdx_total (fun x => { x with next := some x0 })
        (show s.entries.length < (s1.entries ++
          [({ key := k, value := some v, prev := none, next := s.first } : Entry K V)]).length
          by rw [hlen2]; exact Nat.lt_succ_self ..)
      have hlen3 : es3.length = s.entries.length + 1 := (length_modifyIdx h3).trans hlen2
      obtain ⟨es4, h4⟩ := modifyIdx_total (fun x => { x with prev := some s.entries.length })
        (show x0 < es3.length by rw [hlen3]; exact Nat.lt_succ_of_lt hx0n)
      have hlen4 : es4.length = s.entries.length + 1 := (length_modifyIdx h4).trans hlen3
      have hrun : put s k v = some
          { s1 with
            entries := es4
            map := mapInsert s1.map k s.entries.length
            first := some s.entries.length } := by
        simp only [put, hnew, hS1, Option.some_bind, hf1, h3, Option.some_bind, h4,
          Option.map_some']
      have hwf' : WF { s1 with
          entries := es4
          map := mapInsert s1.map k s.entries.length
          first := some s.entries.length } = true := by
        have hEq : sW = _ := Option.some.inj (hputW.symm.trans hrun)
        rw [← hEq]
        exact hwfW
      have p3 := getElem?_modifyIdx h3
      have p4 := getElem?_modifyIdx h4
      have hes2new : (s1.entries ++
          [({ key := k, value := some v, prev := none,
              next := s.first } : Entry K V)])[s.entries.length]?
          = some { key := k, value := some v, prev := none, next := s.first } := by
        have := List.getElem?_concat_length s1.entries
          ({ key := k, value := some v, prev := none, next := s.first } : Entry K V)
        rwa [hlen1] at this
      have hes2old : ∀ i : Nat, i < s1.entries.length → (s1.entries ++
          [({ key := k, value := some v, prev := none, next := s.first } : Entry K V)])[i]?
          = s1.entries[i]? :=
        fun i hi => List.getElem?_append_left hi
      have hx0ne : x0 ≠ s.entries.length := Nat.ne_of_lt hx0n
      have hlook_n : es4[s.entries.length]? = some
          { key := k, value := some v, prev := none, next := some x0 } := by
        rw [p4 s.entries.length, if_neg hx0ne, p3 s.entries.length, if_pos rfl, hes2new]
        rfl
      obtain ⟨ex0, hex0⟩ := getElem?_some_of_lt hx0
      have hlook_x0 : es4[x0]? = some { ex0 with prev := some s.entries.length } := by
        rw [p4 x0, if_pos rfl, p3 x0, if_neg (fun hh => hx0ne hh.symm),
          hes2old x0 hx0, hex0]
        rfl
      have hrest_ne : ∀ i ∈ rest, i ≠ x0 := by
        intro i hi hh
        exact (List.nodup_cons.mp hnd1).1 (hh ▸ hi)
      have hlook_rest : ∀ i ∈ rest, es4[i]? = s1.entries[i]? := by
        intro i hi
        have hilt : i < s1.entries.length := hbnd1 i (List.mem_cons_of_mem _ hi)
        rw [p4 i, if_neg (fun hh => hrest_ne i hi hh.symm), p3 i,
          if_neg (fun hh => Nat.ne_of_lt (hlen1 ▸ hilt) hh.symm),
          hes2old i hilt]
      have hkey_ne_k : ∀ i ∈ x0 :: rest, ∀ e1, s1.entries[i]? = some e1 →
          mapGet s1.map e1.key = some i → e1.key ≠ k := by
        intro i _ e1 _ hk1 hh
        rw [hh, hfresh] at hk1
        cases hk1
      refine ⟨_, hrun, hmax1, hmax1 ▸ hcap1, hwf',
        s.entries.length :: x0 :: rest, ?_, ?_, rfl, ?_, ?_, ?_, ?_, ?_, ?_, ?_, ?_, ?_⟩
      · exact List.nodup_cons.mpr
          ⟨fun hmem => Nat.lt_irrefl _ (hlen1 ▸ hbnd1 _ hmem), hnd1⟩
      · intro i hi
        rcases List.mem_cons.mp hi with rfl | hi'
        · show s.entries.length < es4.length
          rw [hlen4]
          exact Nat.lt_succ_self ..
        · show i < es4.length
          rw [hlen4]
          exact Nat.lt_succ_of_lt (hlen1 ▸ hbnd1 i hi')
      · show s1.last = (s.entries.length :: x0 :: rest).getLast?
        rw [List.getLast?_cons_cons]
        exact hlast1
      · refine ⟨⟨_, hlook_n, rfl⟩, ⟨_, hlook_x0, rfl⟩, ?_⟩
        have hch := hchain1.2
        exact prevChain_congr
          (fun i hi => by rw [hlook_rest i hi]) hch
      · -- the next chain: the new head points at the old head, the rest is unchanged
        refine ⟨⟨_, hlook_n, rfl⟩, ?_⟩
        refine nextAdj_congr ?_ hnadj1
        intro i hi
        have hi' : i ∈ x0 :: rest := (List.dropLast_sublist (x0 :: rest)).subset hi
        rcases List.mem_cons.mp hi' with rfl | hir
        · rw [hlook_x0, hex0]
          rfl
        · rw [hlook_rest i hir]
      · -- the tail's stale next pointer still points outside the live list
        intro t ht et het j hj hmem
        rw [List.getLast?_cons_cons] at ht
        have htmem : t ∈ x0 :: rest := mem_of_getLast?_eq_some ht
        have hnext_pres : (es4[t]?).map (fun e0 => e0.next)
            = (s1.entries[t]?).map (fun e0 => e0.next) := by
          rcases List.mem_cons.mp htmem with rfl | hir
          · rw [hlook_x0, hex0]
            rfl
          · rw [hlook_rest t hir]
        obtain ⟨e1, he1⟩ := getElem?_some_of_lt (hbnd1 t htmem)
        rw [het, he1] at hnext_pres
        have hnx : et.next = e1.next := Option.some.inj hnext_pres
        have hjnot : j ∉ x0 :: rest := hjunk1 t ht e1 he1 j (hnx ▸ hj)
        have hjlt : j < s1.entries.length :=
          boundOk_some (entryOk_parts (wf_entry_ok hwf1 he1)).2 (hnx ▸ hj)
        rcases List.mem_cons.mp hmem with rfl | hm'
        · exact Nat.lt_irrefl _ (hlen1 ▸ hjlt)
        · exact hjnot hm'
      · intro i hi
        rcases List.mem_cons.mp hi with rfl | hi'
        · exact ⟨_, hlook_n, mapGet_mapInsert_self ..⟩
        · obtain ⟨e1, he1, hk1⟩ := hfwd1 i hi'
          have hkne : e1.key ≠ k := hkey_ne_k i hi' e1 he1 hk1
          rcases List.mem_cons.mp hi' with rfl | hi''
          · obtain rfl : ex0 = e1 := Option.some.inj (hex0.symm.trans he1)
            exact ⟨_, hlook_x0, by
              rw [show ({ ex0 with prev := some s.entries.length } : Entry K V).key
                = ex0.key from rfl, mapGet_mapInsert_ne _ hkne]
              exact hk1⟩
          · exact ⟨e1, by rw [hlook_rest i hi'']; exact he1,
              by rw [mapGet_mapInsert_ne _ hkne]; exact hk1⟩
      · intro p hp
        rcases mem_mapInsert hp with rfl | hp'
        · exact ⟨List.mem_cons_self .., _, hlook_n, rfl⟩
        · obtain ⟨hmem, e1, he1, hk1⟩ := hbwd1 p hp'
          refine ⟨List.mem_cons_of_mem _ hmem, ?_⟩
          rcases List.mem_cons.mp hmem with rfl | hmem'
          · obtain rfl : ex0 = e1 := Option.some.inj (hex0.symm.trans he1)
            exact ⟨_, hlook_x0, hk1⟩
          · exact ⟨e1, by rw [hlook_rest p.2 hmem']; exact he1, hk1⟩
      · show (mapInsert s1.map k s.entries.length).length = (x0 :: rest).length + 1
        rw [length_mapInsert_fresh s.entries.length hfresh, hlenm1]
      · show (x0 :: rest).length + 1 ≤ s1.max_size
        rw [hmax1]
        exact hlt1
      · rcases hor1 with h | h
        · left
          show es4.length = (x0 :: rest).length + 1
          rw [hlen4, ← hlen1, h]
        · right
          show (x0 :: rest).length + 1 = s1.max_size
          rw [hmax1]
          exact h

theorem invp_put {s : Cache K V} {k : K} (v : V) (hinv : INVp s)
    (hnew : mapGet s.map k = none) :
    ∃ s', put s k v = some s' ∧ s'.max_size = s.max_size ∧ INVp s' := by
  obtain ⟨hcap1, hwf, L, hnd, hbnd, hhead, hlast, hchain, hnadj, hjunk, hfwd, hbwd, hlenm,
    hlemax, hor⟩ := hinv
  by_cases hcap : s.max_size ≤ s.entries.length
  · -- the eviction branch is taken
    have hLmax : L.length = s.max_size := by
      rcases hor with h | h
      · exact Nat.le_antisymm hlemax (h ▸ hcap)
      · exact h
    have hLne : L ≠ [] := by
      intro hL
      rw [hL] at hLmax
      simp only [List.length_nil] at hLmax
      omega
    obtain ⟨A, t, hLA⟩ : ∃ A t, L = A ++ [t] := by
      rcases List.eq_nil_or_concat L with h | ⟨A, t, h⟩
      · exact absurd h hLne
      · exact ⟨A, t, by rw [h, List.concat_eq_append]⟩
    subst hLA
    have hndA : A.Nodup ∧ t ∉ A := by
      rw [List.nodup_append] at hnd
      exact ⟨hnd.1, fun hmem => hnd.2.2 hmem (List.mem_singleton.mpr rfl)⟩
    have htmem : t ∈ A ++ [t] := List.mem_append.mpr (Or.inr (List.mem_singleton.mpr rfl))
    obtain ⟨e, he, hket⟩ := hfwd t htmem
    have hlastt : s.last = some t := by rw [hlast, List.getLast?_concat]
    have hchainsplit := prevChain_append.mp hchain
    obtain ⟨⟨e', he', hpe'⟩, -⟩ := hchainsplit.2
    have hee : e' = e := Option.some.inj (he'.symm.trans he)
    rw [hee, lastRef_none] at hpe'
    have hwfp := WF_iff.mp hwf
    have hm1get : mapGet (mapRemove s.map e.key) k = none := mapGet_mapRemove_of_none hnew
    have hm1len : (mapRemove s.map e.key).length + 1 = s.map.length :=
      length_mapRemove_found hket
    have hfwdA : ∀ i ∈ A, ∃ e1, s.entries[i]? = some e1 ∧
        mapGet (mapRemove s.map e.key) e1.key = some i := by
      intro i hi
      obtain ⟨e1, he1, hk1⟩ := hfwd i (List.mem_append.mpr (Or.inl hi))
      have hne : e1.key ≠ e.key := by
        intro hh
        rw [hh, hket] at hk1
        obtain rfl : t = i := Option.some.inj hk1
        exact hndA.2 hi
      exact ⟨e1, he1, by rw [mapGet_mapRemove_ne _ hne]; exact hk1⟩
    have hbwdm1 : ∀ p ∈ mapRemove s.map e.key, p.2 ∈ A ∧
        ∃ e1, s.entries[p.2]? = some e1 ∧ e1.key = p.1 := by
      intro p hp
      obtain ⟨hmem, e1, he1, hk1⟩ := hbwd p (mem_mapRemove hp)
      refine ⟨?_, e1, he1, hk1⟩
      rcases List.mem_append.mp hmem with h | h
      · exact h
      · have hpt : p.2 = t := List.mem_singleton.mp h
        rw [hpt] at he1
        have heq : e1 = e := Option.some.inj (he1.symm.trans he)
        have hnone := mapGet_mapRemove_self s.map e.key hwfp.2.2.2.2.1
        have hne := (mapGet_eq_none_iff ..).mp hnone p hp
        exact absurd (heq ▸ hk1).symm hne
    have hlenL : s.map.length = A.length + 1 := by
      rw [hlenm, List.length_append]
      rfl
    have hAmax : A.length + 1 = s.max_size := by
      rw [← hLmax, List.length_append]
      rfl
    cases A with
    | nil =>
        have hpe_none : e.prev = none := by
          rw [hpe']
          rfl
        have hrl : remove_last s = some
            { s with map := mapRemove s.map e.key, last := none, first := none } := by
          simp only [remove_last, hlastt, he, Option.some_bind, hpe_none]
        have hS1 : (if s.max_size ≤ s.entries.length then remove_last s else some s)
            = some { s with map := mapRemove s.map e.key, last := none, first := none } := by
          rw [if_pos hcap, hrl]
        have hwf1 : WF { s with
            map := mapRemove s.map e.key
            last := none
            first := none } = true := by
          obtain ⟨sR, hrlR, hwfR, -⟩ := remove_last_spec hwf
          have hEq : sR = _ := Option.some.inj (hrlR.symm.trans hrl)
          rw [← hEq]
          exact hwfR
        refine invp_link v hwf hnew hS1 rfl rfl hcap1 hwf1 hm1get List.nodup_nil
          (fun i hi => absurd hi (List.not_mem_nil i)) rfl rfl trivial trivial ?_
          (fun i hi => absurd hi (List.not_mem_nil i))
          (fun p hp => ⟨(hbwdm1 p hp).1, (hbwdm1 p hp).2⟩) ?_ ?_ ?_
        · intro t' ht'
          simp at ht'
        · show (mapRemove s.map e.key).length = 0
          have h0 : s.map.length = 1 := by simpa using hlenL
          omega
        · show 0 < s.max_size
          exact hcap1
        · right
          show 0 + 1 = s.max_size
          simpa using hAmax
    | cons x0 A' =>
        obtain ⟨alast, halast⟩ : ∃ a, (x0 :: A').getLast? = some a :=
          ⟨(x0 :: A').getLast (List.cons_ne_nil x0 A'),
            List.getLast?_eq_getLast_of_ne_nil (List.cons_ne_nil x0 A')⟩
        have hpe_some : e.prev = some alast := by rw [hpe', halast]
        have halam : alast ∈ x0 :: A' := mem_of_getLast?_eq_some halast
        have halalt : alast < s.entries.length :=
          hbnd alast (List.mem_append.mpr (Or.inl halam))
        obtain ⟨es1, h1⟩ := modifyIdx_total (fun x => { x with next := none }) halalt
        have l1 : es1.length = s.entries.length := length_modifyIdx h1
        have hrl : remove_last s = some
            { s with entries := es1, map := mapRemove s.map e.key, last := some alast } := by
          simp only [remove_last, hlastt, he, Option.some_bind, hpe_some, h1,
            Option.map_some']
        have hS1 : (if s.max_size ≤ s.entries.length then remove_last s else some s)
            = some
              { s with
                entries := es1
                map := mapRemove s.map e.key
                last := some alast } := by
          rw [if_pos hcap, hrl]
        have hgetkv : ∀ i : Nat, ∀ e1, s.entries[i]? = some e1 →
            ∃ e1', es1[i]? = some e1' ∧ e1'.key = e1.key := by
          intro i e1 he1
          have hkv := keyVal_modifyIdx h1 (fun x => rfl) i
          rw [he1] at hkv
          cases hx : es1[i]? with
          | none =>
              rw [hx] at hkv
              cases hkv
          | some y =>
              rw [hx] at hkv
              exact ⟨y, rfl, congrArg Prod.fst (Option.some.inj hkv)⟩
        have hwf1 : WF { s with
            entries := es1
            map := mapRemove s.map e.key
            last := some alast } = true := by
          obtain ⟨sR, hrlR, hwfR, -⟩ := remove_last_spec hwf
          have hEq : sR = _ := Option.some.inj (hrlR.symm.trans hrl)
          rw [← hEq]
          exact hwfR
        have hnadjA : nextAdj s.entries (x0 :: A') := nextAdj_of_append_left hnadj
        have hnadj1 : nextAdj es1 (x0 :: A') := by
          refine nextAdj_congr ?_ hnadjA
          intro i hi
          have hne : i ≠ alast := fun hh =>
            getLast_not_mem_dropLast hndA.1 halast (hh ▸ hi)
          rw [getElem?_modifyIdx h1 i, if_neg (fun hh => hne hh.symm)]
        have hjunk1 : tailJunk es1 (x0 :: A') := by
          intro t' ht' e' he' j hj hmem
          have htt : t' = alast := by
            rw [halast] at ht'
            exact Option.some.inj ht'.symm
          rw [htt, getElem?_modifyIdx h1 alast, if_pos rfl] at he'
          cases hx : s.entries[alast]? with
          | none =>
              rw [hx] at he'
              cases he'
          | some y =>
              rw [hx, Option.map_some'] at he'
              rw [← Option.some.inj he'] at hj
              exact Option.noConfusion hj
        refine invp_link v hwf hnew hS1 rfl l1 hcap1 hwf1 hm1get hndA.1 ?_ ?_ halast.symm ?_
          hnadj1 hjunk1 ?_ ?_ ?_ ?_ ?_
        · intro i hi
          show i < es1.length
          rw [l1]
          exact hbnd i (List.mem_append.mpr (Or.inl hi))
        · show s.first = (x0 :: A').head?
          rw [hhead]
          rfl
        · show prevChain es1 none (x0 :: A')
          exact prevChain_congr
            (fun i _ => proj_modifyIdx (fun e => e.prev) h1 (fun x => rfl) i)
            hchainsplit.1
        · intro i hi
          obtain ⟨e1, he1, hk1⟩ := hfwdA i hi
          obtain ⟨e1', he1', hkeq⟩ := hgetkv i e1 he1
          exact ⟨e1', he1', by rw [hkeq]; exact hk1⟩
        · intro p hp
          obtain ⟨hmem, e1, he1, hk1⟩ := hbwdm1 p hp
          obtain ⟨e1', he1', hkeq⟩ := hgetkv p.2 e1 he1
          exact ⟨hmem, e1', he1', hkeq.trans hk1⟩
        · show (mapRemove s.map e.key).length = (x0 :: A').length
          omega
        · show (x0 :: A').length < s.max_size
          omega
        · right
          exact hAmax
  · -- no eviction
    have hS1 : (if s.max_size ≤ s.entries.length then remove_last s else some s) = some s :=
      if_neg hcap
    have hLlen := nodup_bounded_length_le hnd hbnd
    have hlt : L.length < s.max_size := by
      rcases hor with h | h
      · rw [← h]
        exact Nat.lt_of_not_le hcap
      · exact absurd (h ▸ hLlen) hcap
    refine invp_link v hwf hnew hS1 rfl rfl hcap1 hwf hnew hnd hbnd hhead hlast hchain
      hnadj hjunk hfwd hbwd hlenm hlt ?_
    rcases hor with h | h
    · exact Or.inl h
    · exact (Nat.lt_irrefl _ (h ▸ hlt)).elim

theorem invp_with_capacity {n : Nat} (hn : 1 ≤ n) : INVp (with_capacity n : Cache K V) :=
  ⟨hn, wf_with_capacity n, [], List.nodup_nil,
    fun i hi => absurd hi (List.not_mem_nil i), rfl, rfl, trivial, trivial,
    fun t ht => by simp at ht,
    fun i hi => absurd hi (List.not_mem_nil i),
    fun p hp => absurd hp (List.not_mem_nil p), rfl, Nat.zero_le n, Or.inl rfl⟩

theorem invp_runPuts : ∀ (kvs : List (K × V)) (s : Cache K V), INVp s →
    (kvs.map Prod.fst).Nodup → (∀ p ∈ kvs, mapGet s.map p.1 = none) →
    ∃ s', runPuts s kvs = some s' ∧ s'.max_size = s.max_size ∧ INVp s' := by
  intro kvs
  induction kvs with
  | nil => exact fun s hinv _ _ => ⟨s, rfl, rfl, hinv⟩
  | cons kv kvs ih =>
      intro s hinv hnd hfr
      have hndc : kv.1 ∉ kvs.map Prod.fst ∧ (kvs.map Prod.fst).Nodup :=
        List.nodup_cons.mp (by rw [List.map_cons] at hnd; exact hnd)
      obtain ⟨s1, hput, hmax1, hinv1⟩ :=
        invp_put kv.2 hinv (hfr kv (List.mem_cons_self ..))
      obtain ⟨sW, hputW, _, _, _, _, hmapW, _⟩ := put_spec_new kv.2 hinv.2.1
        (hfr kv (List.mem_cons_self ..))
      have hEq : sW = s1 := Option.some.inj (hputW.symm.trans hput)
      have hfr1 : ∀ p ∈ kvs, mapGet s1.map p.1 = none := by
        intro p hp
        have hne : p.1 ≠ kv.1 :=
          fun hh => hndc.1 (hh ▸ List.mem_map_of_mem Prod.fst hp)
        rw [← hEq, hmapW, mapGet_mapInsert_ne _ hne]
        by_cases hc : s.max_size ≤ s.entries.length
        · rw [if_pos hc]
          exact mapGet_evictedMap_of_none (hfr p (List.mem_cons_of_mem _ hp))
        · rw [if_neg hc]
          exact hfr p (List.mem_cons_of_mem _ hp)
      obtain ⟨s', hrun, hmax', hinv'⟩ := ih s1 hinv1 hndc.2 hfr1
      refine ⟨s', ?_, hmax'.trans hmax1, hinv'⟩
      show (step s (Op.put kv.1 kv.2)).bind
        (fun s2 => run s2 (kvs.map (fun p => Op.put p.1 p.2))) = some s'
      rw [show step s (Op.put kv.1 kv.2) = put s kv.1 kv.2 from rfl, hput,
        Option.some_bind]
      exact hrun


theorem invp_mtf {s : Cache K V} {i : Nat} {L : List Nat}
    (hcap : 1 ≤ s.max_size)
    (hwf : WF s = true)
    (hnd : L.Nodup)
    (hbnd : ∀ j ∈ L, j < s.entries.length)
    (hhead : s.first = L.head?)
    (hlast : s.last = L.getLast?)
    (hchain : prevChain s.entries none L)
    (hnadj : nextAdj s.entries L)
    (hjunk : tailJunk s.entries L)
    (hfwd : ∀ j ∈ L, ∃ e, s.entries[j]? = some e ∧ mapGet s.map e.key = some j)
    (hbwd : ∀ p ∈ s.map, p.2 ∈ L ∧ ∃ e, s.entries[p.2]? = some e ∧ e.key = p.1)
    (hlenm : s.map.length = L.length)
    (hlemax : L.length ≤ s.max_size)
    (hor : s.entries.length = L.length ∨ L.length = s.max_size)
    (hmem : i ∈ L) :
    ∃ s', move_to_front s i = some s' ∧ s'.map = s.map ∧
      s'.max_size = s.max_size ∧ s'.entries.length = s.entries.length ∧ INVp s' := by
  by_cases hfirst : some i = s.first
  · refine ⟨s, ?_, rfl, rfl, rfl, hcap, hwf, L, hnd, hbnd, hhead, hlast, hchain, hnadj,
      hjunk, hfwd, hbwd, hlenm, hlemax, hor⟩
    simp [move_to_front, hfirst]
  · obtain ⟨A, B, rfl⟩ := List.append_of_mem hmem
    have hndparts := List.nodup_append.mp hnd
    have hndA : A.Nodup := hndparts.1
    have hndiB : (i :: B).Nodup := hndparts.2.1
    have hdisj : A.Disjoint (i :: B) := hndparts.2.2
    have hiA : i ∉ A := fun hh => hdisj hh (List.mem_cons_self ..)
    have hiB : i ∉ B := (List.nodup_cons.mp hndiB).1
    have hndB : B.Nodup := (List.nodup_cons.mp hndiB).2
    have hdisjAB : ∀ j ∈ A, j ∉ B := fun j hj hjB => hdisj hj (List.mem_cons_of_mem _ hjB)
    obtain ⟨a0, A2, rfl⟩ : ∃ a0 A2, A = a0 :: A2 := by
      cases A with
      | nil => exact absurd (by rw [hhead]; rfl) hfirst
      | cons a as => exact ⟨a, as, rfl⟩
    have ha0 : s.first = some a0 := by rw [hhead]; rfl
    have haneA : (a0 :: A2) ≠ [] := List.cons_ne_nil a0 A2
    obtain ⟨ap, hap⟩ : ∃ ap, (a0 :: A2).getLast? = some ap :=
      ⟨(a0 :: A2).getLast haneA, List.getLast?_eq_getLast_of_ne_nil haneA⟩
    have hapA : ap ∈ a0 :: A2 := mem_of_getLast?_eq_some hap
    have hapi : ap ≠ i := fun hh => hiA (hh ▸ hapA)
    have hap_lt : ap < s.entries.length := hbnd ap (List.mem_append.mpr (Or.inl hapA))
    have hi_lt : i < s.entries.length := hbnd i hmem
    obtain ⟨e, he, hkey⟩ := hfwd i hmem
    have hch1 := prevChain_append.mp hchain
    obtain ⟨⟨e', he', hpe'⟩, hchB⟩ := hch1.2
    have hee : e' = e := Option.some.inj (he'.symm.trans he)
    rw [hee] at hpe'
    have hprev : e.prev = some ap := by
      rw [hpe', lastRef_none, hap]
    have hnextB : ∀ b, B.head? = some b → e.next = some b := by
      intro b hb
      cases B with
      | nil => simp at hb
      | cons b0 B2 =>
          obtain rfl : b = b0 := Option.some.inj hb.symm
          have hiadj := nextAdj_of_append_right hnadj
          obtain ⟨⟨e2, he2, hne2⟩, -⟩ := hiadj
          have hq : e2 = e := Option.some.inj (he2.symm.trans he)
          rw [← hq]
          exact hne2
    have hnext_junk : B = [] → ∀ j, e.next = some j → j ∉ (a0 :: A2) ++ i :: B := by
      intro hB j hj
      subst hB
      exact hjunk i
        (by rw [List.getLast?_append_of_ne_nil (a0 :: A2) (List.cons_ne_nil i [])]; rfl)
        e he j hj
    have hnext_notA : ∀ j ∈ a0 :: A2, e.next ≠ some j := by
      intro j hjA hc
      cases B with
      | nil => exact hnext_junk rfl j hc (List.mem_append.mpr (Or.inl hjA))
      | cons b0 B2 =>
          have hb : e.next = some b0 := hnextB b0 rfl
          obtain rfl : j = b0 := Option.some.inj (hc.symm.trans hb)
          exact hdisjAB j hjA (List.mem_cons_self ..)
    have hnext_ne_i : e.next ≠ some i := by
      intro hc
      cases B with
      | nil =>
          exact hnext_junk rfl i hc
            (List.mem_append.mpr (Or.inr (List.mem_cons_self ..)))
      | cons b0 B2 =>
          have hb : e.next = some b0 := hnextB b0 rfl
          refine hiB ?_
          rw [← Option.some.inj (hb.symm.trans hc)]
          exact List.mem_cons_self ..
    have hnext_notB2 : ∀ b0 B2, B = b0 :: B2 → ∀ j ∈ B2, e.next ≠ some j := by
      intro b0 B2 hB j hj hc
      have hb : e.next = some b0 := hnextB b0 (by rw [hB]; rfl)

      obtain rfl : j = b0 := Option.some.inj (hc.symm.trans hb)
      exact (List.nodup_cons.mp (hB ▸ hndB)).1 hj
    obtain ⟨es1, h1⟩ := modifyIdx_total (fun x => { x with next := e.next }) hap_lt
    have hpatch1 : patch s.entries e.prev (fun x => { x with next := e.next }) = some es1 := by
      rw [hprev]
      exact h1
    have l1 : es1.length = s.entries.length := length_modifyIdx h1
    have hb2 : boundOk es1.length e.next = true := by
      rw [l1]
      exact (entryOk_parts (wf_entry_ok hwf he)).2
    obtain ⟨es2, h2⟩ := patch_total (fun x => { x with prev := e.prev }) hb2
    have l2 : es2.length = s.entries.length := (length_patch h2).trans l1
    have hb3 : boundOk es2.length s.first = true := by
      rw [l2]
      exact (WF_iff.mp hwf).1
    obtain ⟨es3, h3⟩ := patch_total (fun x => { x with prev := some i }) hb3
    have l3 : es3.length = s.entries.length := (length_patch h3).trans l2
    obtain ⟨es4, h4⟩ := modifyIdx_total (fun x => { x with prev := none, next := s.first })
      (show i < es3.length by rw [l3]; exact hi_lt)
    have l4 : es4.length = s.entries.length := (length_modifyIdx h4).trans l3
    have hrun : move_to_front s i = some
        { s with
          entries := es4
          first := some i
          last := if some i = s.last then e.prev else s.last } := by
      simp only [move_to_front, if_neg hfirst, he, Option.some_bind, hpatch1, h2, h3, h4,
        Option.map_some']
    obtain ⟨sM, hrunM, hwfM, -⟩ := move_to_front_spec hwf hi_lt
    have hEqM : sM = _ := Option.some.inj (hrunM.symm.trans hrun)
    have hwf' : WF { s with
        entries := es4
        first := some i
        last := if some i = s.last then e.prev else s.last } = true := by
      rw [← hEqM]
      exact hwfM
    have q4 := getElem?_modifyIdx h4
    have q3 := getElem?_patch h3
    have q2 := getElem?_patch h2
    have q1 := getElem?_modifyIdx h1
    have hKeyPres : ∀ j : Nat, (es4[j]?).map keyVal = (s.entries[j]?).map keyVal := by
      intro j
      rw [keyVal_modifyIdx h4 (fun x => rfl) j, keyVal_patch h3 (fun x => rfl) j,
        keyVal_patch h2 (fun x => rfl) j, keyVal_modifyIdx h1 (fun x => rfl) j]
    have hPrevPres : ∀ j : Nat, i ≠ j → s.first ≠ some j → e.next ≠ some j →
        (es4[j]?).map (fun x => x.prev) = (s.entries[j]?).map (fun x => x.prev) := by
      intro j hj1 hj2 hj3
      rw [q4 j, if_neg hj1, q3 j, if_neg hj2, q2 j, if_neg hj3]
      exact proj_modifyIdx (fun x => x.prev) h1 (fun x => rfl) j
    have hNextPres : ∀ j : Nat, i ≠ j → ap ≠ j →
        (es4[j]?).map (fun x => x.next) = (s.entries[j]?).map (fun x => x.next) := by
      intro j hj1 hj2
      rw [q4 j, if_neg hj1, proj_patch (fun x => x.next) h3 (fun x => rfl) j,
        proj_patch (fun x => x.next) h2 (fun x => rfl) j, q1 j, if_neg hj2]
    have hlook_i : es4[i]? = some { e with prev := none, next := s.first } := by
      rw [q4 i, if_pos rfl, q3 i, if_neg (fun hh => hfirst hh.symm), q2 i,
        if_neg hnext_ne_i, q1 i, if_neg hapi, he]
      rfl
    obtain ⟨xa0, hxa0⟩ := getElem?_some_of_lt (show a0 < es2.length by
      rw [l2]
      exact hbnd a0 (List.mem_append.mpr (Or.inl (List.mem_cons_self ..))))
    have ha0i : a0 ≠ i := fun hh => hiA (hh ▸ List.mem_cons_self ..)
    have hlook_a0 : es4[a0]? = some { xa0 with prev := some i } := by
      rw [q4 a0, if_neg (fun hh => ha0i hh.symm), q3 a0, if_pos ha0, hxa0]
      rfl
    obtain ⟨xap, hxap⟩ := getElem?_some_of_lt hap_lt
    have h1ap : es1[ap]? = some { xap with next := e.next } := by
      rw [q1 ap, if_pos rfl, hxap]
      rfl
    have h2ap : es2[ap]? = some { xap with next := e.next } := by
      rw [q2 ap, if_neg (hnext_notA ap hapA), h1ap]
    have hlook_ap : ∃ ea, es4[ap]? = some ea ∧ ea.next = e.next := by
      by_cases hfa : s.first = some ap
      · refine ⟨{ { xap with next := e.next } with prev := some i }, ?_, rfl⟩
        rw [q4 ap, if_neg (fun hh => hapi hh.symm), q3 ap, if_pos hfa, h2ap]
        rfl
      · refine ⟨{ xap with next := e.next }, ?_, rfl⟩
        rw [q4 ap, if_neg (fun hh => hapi hh.symm), q3 ap, if_neg hfa, h2ap]
    have hmemiff : ∀ j, j ∈ i :: (a0 :: A2) ++ B ↔ j ∈ (a0 :: A2) ++ i :: B := by
      intro j
      constructor
      · intro h
        rcases List.mem_cons.mp h with rfl | h2
        · exact List.mem_append.mpr (Or.inr (List.mem_cons_self ..))
        · rcases List.mem_append.mp h2 with h3 | h3
          · exact List.mem_append.mpr (Or.inl h3)
          · exact List.mem_append.mpr (Or.inr (List.mem_cons_of_mem _ h3))
      · intro h
        rcases List.mem_append.mp h with h2 | h2
        · exact List.mem_cons_of_mem _ (List.mem_append.mpr (Or.inl h2))
        · rcases List.mem_cons.mp h2 with rfl | h3
          · exact List.mem_cons_self ..
          · exact List.mem_cons_of_mem _ (List.mem_append.mpr (Or.inr h3))
    refine ⟨_, hrun, rfl, rfl, l4, hcap, hwf', i :: (a0 :: A2) ++ B,
      ?_, ?_, rfl, ?_, ?_, ?_, ?_, ?_, ?_, ?_, ?_, ?_⟩
    · refine List.nodup_cons.mpr ⟨?_, List.nodup_append.mpr ⟨hndA, hndB, hdisjAB⟩⟩
      intro hmem2
      rcases List.mem_append.mp hmem2 with h | h
      · exact hiA h
      · exact hiB h
    · intro j hj
      show j < es4.length
      rw [l4]
      exact hbnd j ((hmemiff j).mp hj)
    · show (if some i = s.last then e.prev else s.last) = (i :: (a0 :: A2) ++ B).getLast?
      cases B with
      | nil =>
          have hsl : s.last = some i := by
            rw [hlast, List.getLast?_append_of_ne_nil (a0 :: A2) (List.cons_ne_nil i [])]
            rfl
          rw [if_pos hsl.symm, hprev,
            show (i :: (a0 :: A2) ++ ([] : List Nat)) = i :: a0 :: A2 by simp,
            List.getLast?_cons_cons]
          exact hap.symm
      | cons b0 B2 =>
          have hsl : s.last = (b0 :: B2).getLast? := by
            rw [hlast, List.getLast?_append_of_ne_nil (a0 :: A2) (List.cons_ne_nil i (b0 :: B2)),
              List.getLast?_cons_cons]
          obtain ⟨bt, hbt⟩ : ∃ bt, (b0 :: B2).getLast? = some bt :=
            ⟨(b0 :: B2).getLast (List.cons_ne_nil b0 B2),
              List.getLast?_eq_getLast_of_ne_nil (List.cons_ne_nil b0 B2)⟩
          have hbtB : bt ∈ b0 :: B2 := mem_of_getLast?_eq_some hbt
          have hne : ¬ some i = s.last := by
            rw [hsl, hbt]
            intro hh
            refine hiB ?_
            rw [Option.some.inj hh]
            exact hbtB
          rw [if_neg hne, hsl]
          show (b0 :: B2).getLast? = ((i :: a0 :: A2) ++ b0 :: B2).getLast?
          rw [List.getLast?_append_of_ne_nil (i :: a0 :: A2) (List.cons_ne_nil b0 B2)]
    · show prevChain es4 none (i :: (a0 :: A2) ++ B)
      refine ⟨⟨_, hlook_i, rfl⟩, ?_⟩
      show prevChain es4 (some i) ((a0 :: A2) ++ B)
      refine prevChain_append.mpr ⟨⟨⟨_, hlook_a0, rfl⟩, ?_⟩, ?_⟩
      · have hchA2 : prevChain s.entries (some a0) A2 := hch1.1.2
        refine prevChain_congr ?_ hchA2
        intro j hj
        have hjA : j ∈ a0 :: A2 := List.mem_cons_of_mem _ hj
        refine hPrevPres j (fun hh => hiA (hh ▸ hjA)) ?_ (hnext_notA j hjA)
        rw [ha0]
        intro hh
        refine (List.nodup_cons.mp hndA).1 ?_
        rw [Option.some.inj hh]
        exact hj
      · rw [show lastRef (some i) (a0 :: A2) = some ap by simp [lastRef, hap]]
        cases B with
        | nil => trivial
        | cons b0 B2 =>
            obtain ⟨-, hchB2⟩ := hchB
            have hb0 : e.next = some b0 := hnextB b0 rfl
            have hb0A : b0 ∉ a0 :: A2 := fun hh => hdisjAB b0 hh (List.mem_cons_self ..)
            have hb0i : b0 ≠ i := fun hh => hiB (hh ▸ List.mem_cons_self ..)
            obtain ⟨x1, hx1⟩ := getElem?_some_of_lt (show b0 < es1.length by
              rw [l1]
              exact hbnd b0 (List.mem_append.mpr (Or.inr (List.mem_cons_of_mem _
                (List.mem_cons_self ..)))))
            have hfb0 : ¬ s.first = some b0 := by
              rw [ha0]
              intro hh
              refine hb0A ?_
              rw [← Option.some.inj hh]
              exact List.mem_cons_self ..
            have hlook_b0 : es4[b0]? = some { x1 with prev := e.prev } := by
              rw [q4 b0, if_neg (fun hh => hb0i hh.symm), q3 b0, if_neg hfb0, q2 b0,
                if_pos hb0, hx1]
              rfl
            refine ⟨⟨_, hlook_b0, hprev⟩, ?_⟩
            refine prevChain_congr ?_ hchB2
            intro j hj
            have hjB : j ∈ b0 :: B2 := List.mem_cons_of_mem _ hj
            refine hPrevPres j (fun hh => hiB (hh ▸ hjB)) ?_ (hnext_notB2 b0 B2 rfl j hj)
            rw [ha0]
            intro hh
            refine hdisjAB a0 (List.mem_cons_self ..) ?_
            rw [Option.some.inj hh]
            exact hjB
    · show nextAdj es4 (i :: (a0 :: A2) ++ B)
      have hnadjA4 : nextAdj es4 (a0 :: A2) := by
        refine nextAdj_congr ?_ (nextAdj_of_append_left hnadj)
        intro j hj
        have hjA : j ∈ a0 :: A2 := (List.dropLast_sublist (a0 :: A2)).subset hj
        refine hNextPres j (fun hh => hiA (hh ▸ hjA))
          (fun hh => getLast_not_mem_dropLast hndA hap (hh ▸ hj))
      have hnadjB4 : nextAdj es4 B := by
        refine nextAdj_congr ?_ (nextAdj_of_cons (nextAdj_of_append_right hnadj))
        intro j hj
        have hjB : j ∈ B := (List.dropLast_sublist B).subset hj
        refine hNextPres j (fun hh => hiB (hh ▸ hjB)) ?_
        intro hh
        refine hdisjAB ap hapA ?_
        rw [hh]
        exact hjB
      rw [List.cons_append]
      refine ⟨⟨_, hlook_i, show s.first = some a0 from ha0⟩, ?_⟩
      show nextAdj es4 ((a0 :: A2) ++ B)
      refine nextAdj_append hnadjB4 hnadjA4 ?_
      intro a ha b hb
      obtain rfl : ap = a := Option.some.inj (hap.symm.trans ha)
      obtain ⟨ea, hea, hean⟩ := hlook_ap
      refine ⟨ea, hea, ?_⟩
      rw [hean]
      exact hnextB b hb
    · intro t ht et het j hj hmemj
      have het4 : es4[t]? = some et := het
      cases B with
      | nil =>
          rw [List.append_nil, List.getLast?_cons_cons] at ht
          obtain rfl : ap = t := Option.some.inj (hap.symm.trans ht)
          obtain ⟨ea, hea, hean⟩ := hlook_ap
          obtain rfl : et = ea := Option.some.inj (het4.symm.trans hea)
          have hj2 : e.next = some j := by
            rw [← hean]
            exact hj
          have hnot := hnext_junk rfl j hj2
          rw [List.append_nil] at hmemj
          rcases List.mem_cons.mp hmemj with rfl | hm2
          · exact hnot (List.mem_append.mpr (Or.inr (List.mem_cons_self ..)))
          · exact hnot (List.mem_append.mpr (Or.inl hm2))
      | cons b0 B2 =>
          have htl : (b0 :: B2).getLast? = some t := by
            rw [List.getLast?_append_of_ne_nil (i :: a0 :: A2) (List.cons_ne_nil b0 B2)] at ht
            exact ht
          have htB : t ∈ b0 :: B2 := mem_of_getLast?_eq_some htl
          have hti : t ≠ i := fun hh => hiB (hh ▸ htB)
          have htap : ap ≠ t := by
            intro hh
            refine hdisjAB ap hapA ?_
            rw [hh]
            exact htB
          have hNP := hNextPres t (fun hh => hti hh.symm) htap
          obtain ⟨eot, heot⟩ := getElem?_some_of_lt (hbnd t (List.mem_append.mpr
            (Or.inr (List.mem_cons_of_mem _ htB))))
          rw [het4, heot] at hNP
          have hnn : et.next = eot.next := Option.some.inj hNP
          have hosj : eot.next = some j := by
            rw [← hnn]
            exact hj
          have hLlast : ((a0 :: A2) ++ i :: b0 :: B2).getLast? = some t := by
            rw [List.getLast?_append_of_ne_nil (a0 :: A2) (List.cons_ne_nil i (b0 :: B2)),
              List.getLast?_cons_cons]
            exact htl
          have hnotin := hjunk t hLlast eot heot j hosj
          rcases List.mem_append.mp hmemj with h2 | h2
          · rcases List.mem_cons.mp h2 with rfl | h3
            · exact hnotin (List.mem_append.mpr (Or.inr (List.mem_cons_self ..)))
            · exact hnotin (List.mem_append.mpr (Or.inl h3))
          · exact hnotin (List.mem_append.mpr (Or.inr (List.mem_cons_of_mem _ h2)))
    · intro j hj
      show ∃ e0, es4[j]? = some e0 ∧ mapGet s.map e0.key = some j
      obtain ⟨e1, he1, hk1⟩ := hfwd j ((hmemiff j).mp hj)
      have hkv := hKeyPres j
      rw [he1] at hkv
      cases hx : es4[j]? with
      | none =>
          rw [hx] at hkv
          cases hkv
      | some y =>
          rw [hx] at hkv
          refine ⟨y, rfl, ?_⟩
          rw [show y.key = e1.key from congrArg Prod.fst (Option.some.inj hkv)]
          exact hk1
    · intro p hp
      refine ⟨(hmemiff p.2).mpr (hbwd p hp).1, ?_⟩
      show ∃ e0, es4[p.2]? = some e0 ∧ e0.key = p.1
      obtain ⟨-, e1, he1, hk1⟩ := hbwd p hp
      have hkv := hKeyPres p.2
      rw [he1] at hkv
      cases hx : es4[p.2]? with
      | none =>
          rw [hx] at hkv
          cases hkv
      | some y =>
          rw [hx] at hkv
          exact ⟨y, rfl, (congrArg Prod.fst (Option.some.inj hkv)).trans hk1⟩
    · show s.map.length = (i :: (a0 :: A2) ++ B).length
      rw [hlenm]
      simp only [List.length_append, List.length_cons]
      omega
    · show (i :: (a0 :: A2) ++ B).length ≤ s.max_size
      have hll : (i :: (a0 :: A2) ++ B).length = ((a0 :: A2) ++ i :: B).length := by
        simp only [List.length_append, List.length_cons]
        omega
      rw [hll]
      exact hlemax
    · show es4.length = (i :: (a0 :: A2) ++ B).length ∨
        (i :: (a0 :: A2) ++ B).length = s.max_size
      have hll : (i :: (a0 :: A2) ++ B).length = ((a0 :: A2) ++ i :: B).length := by
        simp only [List.length_append, List.length_cons]
        omega
      rw [hll, l4]
      exact hor



theorem invp_get {s : Cache K V} (k : K) (hinv : INVp s) :
    ∃ r s', get s k = some (r, s') ∧ s'.max_size = s.max_size ∧ INVp s' := by
  obtain ⟨hcap, hwf, L, hnd, hbnd, hhead, hlast, hchain, hnadj, hjunk, hfwd, hbwd, hlenm,
    hlemax, hor⟩ := hinv
  cases hm : mapGet s.map k with
  | none =>
      refine ⟨none, s, ?_, rfl, hcap, hwf, L, hnd, hbnd, hhead, hlast, hchain, hnadj,
        hjunk, hfwd, hbwd, hlenm, hlemax, hor⟩
      simp [get, hm]
  | some index =>
      have hmemL : index ∈ L := (hbwd (k, index) (mem_of_mapGet_eq_some hm)).1
      obtain ⟨s', hmtf, hmap', hmax', hlen', hinv'⟩ := invp_mtf hcap hwf hnd hbnd hhead
        hlast hchain hnadj hjunk hfwd hbwd hlenm hlemax hor hmemL
      obtain ⟨e4, he4⟩ := getElem?_some_of_lt (show index < s'.entries.length by
        rw [hlen']
        exact hbnd index hmemL)
      refine ⟨e4.value, s', ?_, hmax', hinv'⟩
      simp only [get, hm, hmtf, Option.some_bind, he4, Option.map_some']

theorem invp_put_upd {s : Cache K V} {k : K} {index : Nat} (v : V) (hinv : INVp s)
    (hm : mapGet s.map k = some index) :
    ∃ s', put s k v = some s' ∧ s'.max_size = s.max_size ∧ INVp s' := by
  obtain ⟨hcap, hwf, L, hnd, hbnd, hhead, hlast, hchain, hnadj, hjunk, hfwd, hbwd, hlenm,
    hlemax, hor⟩ := hinv
  have hidx : index < s.entries.length := wf_map_lt hwf hm
  obtain ⟨es1, h1⟩ := modifyIdx_total (fun x => { x with value := some v }) hidx
  have l1 : es1.length = s.entries.length := length_modifyIdx h1
  have hwfM : WF { s with entries := es1 } = true := by
    rw [WF_iff]
    have hwfp := WF_iff.mp hwf
    refine ⟨?_, ?_, ?_, ?_, hwfp.2.2.2.2.1, hwfp.2.2.2.2.2⟩
    · show boundOk es1.length s.first = true
      rw [l1]
      exact hwfp.1
    · show boundOk es1.length s.last = true
      rw [l1]
      exact hwfp.2.1
    · intro p hp
      show p.2 < es1.length
      rw [l1]
      exact hwfp.2.2.1 p hp
    · intro x hx
      show entryOk es1.length x = true
      rw [l1]
      exact entryOk_modifyIdx h1 hwfp.2.2.2.1 (fun y hy => entryOk_with_value hy) x hx
  have hprevP : ∀ j : Nat,
      (es1[j]?).map (fun x => x.prev) = (s.entries[j]?).map (fun x => x.prev) :=
    proj_modifyIdx (fun x => x.prev) h1 (fun x => rfl)
  have hnextP : ∀ j : Nat,
      (es1[j]?).map (fun x => x.next) = (s.entries[j]?).map (fun x => x.next) :=
    proj_modifyIdx (fun x => x.next) h1 (fun x => rfl)
  have hkeyP : ∀ j : Nat,
      (es1[j]?).map (fun x => x.key) = (s.entries[j]?).map (fun x => x.key) :=
    proj_modifyIdx (fun x => x.key) h1 (fun x => rfl)
  have hbndM : ∀ j ∈ L, j < es1.length := by
    intro j hj
    rw [l1]
    exact hbnd j hj
  have hchainM : prevChain es1 none L := prevChain_congr (fun j _ => hprevP j) hchain
  have hnadjM : nextAdj es1 L := nextAdj_congr (fun j _ => hnextP j) hnadj
  have hjunkM : tailJunk es1 L := by
    intro t ht et het j hj hmemj
    obtain ⟨eo, heo⟩ := getElem?_some_of_lt (hbnd t (mem_of_getLast?_eq_some ht))
    have hNP := hnextP t
    rw [het, heo] at hNP
    have hnn : et.next = eo.next := Option.some.inj hNP
    refine hjunk t ht eo heo j ?_ hmemj
    rw [← hnn]
    exact hj
  have hfwdM : ∀ j ∈ L, ∃ e, es1[j]? = some e ∧ mapGet s.map e.key = some j := by
    intro j hj
    obtain ⟨e0, he0, hk0⟩ := hfwd j hj
    have hkp := hkeyP j
    rw [he0] at hkp
    cases hx : es1[j]? with
    | none =>
        rw [hx] at hkp
        cases hkp
    | some y =>
        rw [hx] at hkp
        have hyk : y.key = e0.key := Option.some.inj hkp
        refine ⟨y, rfl, ?_⟩
        rw [hyk]
        exact hk0
  have hbwdM : ∀ p ∈ s.map, p.2 ∈ L ∧ ∃ e, es1[p.2]? = some e ∧ e.key = p.1 := by
    intro p hp
    obtain ⟨hmL, e0, he0, hk0⟩ := hbwd p hp
    refine ⟨hmL, ?_⟩
    have hkp := hkeyP p.2
    rw [he0] at hkp
    cases hx : es1[p.2]? with
    | none =>
        rw [hx] at hkp
        cases hkp
    | some y =>
        rw [hx] at hkp
        exact ⟨y, rfl, (Option.some.inj hkp).trans hk0⟩
  have horM : es1.length = L.length ∨ L.length = s.max_size := by
    rw [l1]
    exact hor
  have hmemL : index ∈ L := (hbwd (k, index) (mem_of_mapGet_eq_some hm)).1
  obtain ⟨s', hmtf, hmap', hmax', hlen', hinv'⟩ :=
    @invp_mtf K V _ { s with entries := es1 } index L hcap hwfM hnd hbndM hhead hlast
      hchainM hnadjM hjunkM hfwdM hbwdM hlenm hlemax horM hmemL
  refine ⟨s', ?_, hmax', hinv'⟩
  simp only [put, hm, h1, Option.some_bind]
  exact hmtf

theorem invp_put_any {s : Cache K V} (k : K) (v : V) (hinv : INVp s) :
    ∃ s', put s k v = some s' ∧ s'.max_size = s.max_size ∧ INVp s' := by
  cases hm : mapGet s.map k with
  | none => exact invp_put v hinv hm
  | some index => exact invp_put_upd v hinv hm

theorem invp_step_no_inval {s : Cache K V} {op : Op K V} (hinv : INVp s)
    (hni : isInval op = false) :
    ∃ s', step s op = some s' ∧ s'.max_size = s.max_size ∧ INVp s' := by
  cases op with
  | get k =>
      obtain ⟨r, s', hget, hmax, hinv'⟩ := invp_get k hinv
      refine ⟨s', ?_, hmax, hinv'⟩
      show (get s k).map Prod.snd = some s'
      rw [hget]
      rfl
  | put k v => exact invp_put_any k v hinv
  | invalidate k => exact Bool.noConfusion hni

theorem invp_run_no_inval : ∀ (ops : List (Op K V)) (s : Cache K V), INVp s →
    (∀ op ∈ ops, isInval op = false) →
    ∃ s', run s ops = some s' ∧ s'.max_size = s.max_size ∧ INVp s' := by
  intro ops
  induction ops with
  | nil => exact fun s hinv _ => ⟨s, rfl, rfl, hinv⟩
  | cons op ops ih =>
      intro s hinv hni
      obtain ⟨s1, hstep, hmax1, hinv1⟩ := invp_step_no_inval hinv
        (hni op (List.mem_cons_self ..))
      obtain ⟨s', hrun, hmax', hinv'⟩ := ih s1 hinv1
        (fun o ho => hni o (List.mem_cons_of_mem _ ho))
      refine ⟨s', ?_, hmax'.trans hmax1, hinv'⟩
      show (step s op).bind (fun s2 => run s2 ops) = some s'
      rw [hstep, Option.some_bind]
      exact hrun


end CapacityInv

section Equivalence

theorem e2l_prev (e : Entry K V) : (e2l e).prev = e.prev := rfl

theorem e2l_next (e : Entry K V) : (e2l e).next = e.next := rfl

theorem e2l_key (e : Entry K V) : (e2l e).key = e.key := rfl

theorem e2l_value (e : Entry K V) : (e2l e).value = e.value := rfl

theorem c2l_entries (s : Cache K V) : (c2l s).entries = s.entries.map e2l := rfl

theorem c2l_map (s : Cache K V) : (c2l s).map = s.map := rfl

theorem c2l_first (s : Cache K V) : (c2l s).first = s.first := rfl

theorem c2l_last (s : Cache K V) : (c2l s).last = s.last := rfl

theorem c2l_max (s : Cache K V) : (c2l s).max_size = s.max_size := rfl

theorem modifyIdx_map_e2l {xs : List (Entry K V)} {i : Nat}
    {f : Entry K V → Entry K V} {f' : LRU.Entry K V → LRU.Entry K V}
    (hf : ∀ x, e2l (f x) = f' (e2l x)) :
    modifyIdx (xs.map e2l) i f' = (modifyIdx xs i f).map (List.map e2l) := by
  unfold modifyIdx
  rw [List.getElem?_map]
  cases hx : xs[i]? with
  | none => rfl
  | some x =>
      simp only [Option.map_some']
      rw [List.map_set, hf x]

theorem patch_map_e2l {xs : List (Entry K V)} {o : Option Nat}
    {f : Entry K V → Entry K V} {f' : LRU.Entry K V → LRU.Entry K V}
    (hf : ∀ x, e2l (f x) = f' (e2l x)) :
    patch (xs.map e2l) o f' = (patch xs o f).map (List.map e2l) := by
  cases o with
  | none => rfl
  | some i => exact modifyIdx_map_e2l hf

theorem lru_move_to_front_eq (s : Cache K V) (index : Nat) :
    LRU._move_to_front (c2l s) index = (move_to_front s index).map c2l := by
  by_cases hfst : some index = s.first
  · have h1 : LRU._move_to_front (c2l s) index = some (c2l s) := by
      unfold LRU._move_to_front
      rw [if_pos (show some index = (c2l s).first from hfst)]
    have h2 : move_to_front s index = some s := by
      unfold move_to_front
      rw [if_pos hfst]
    rw [h1, h2, Option.map_some']
  · unfold LRU._move_to_front move_to_front
    rw [if_neg (show ¬some index = (c2l s).first from hfst), if_neg hfst,
      c2l_entries, List.getElem?_map]
    cases he : s.entries[index]? with
    | none => rfl
    | some e =>
        simp only [Option.map_some', Option.some_bind, e2l_prev, e2l_next]
        have hp1 : patch (s.entries.map e2l) e.prev
            (fun x => { x with next := e.next })
            = (patch s.entries e.prev (fun x => { x with next := e.next })).map
              (List.map e2l) := patch_map_e2l (fun x => rfl)
        rw [hp1]
        cases h1 : patch s.entries e.prev (fun x => { x with next := e.next }) with
        | none => rfl
        | some es1 =>
            simp only [Option.map_some', Option.some_bind]
            have hp2 : patch (es1.map e2l) e.next (fun x => { x with prev := e.prev })
                = (patch es1 e.next (fun x => { x with prev := e.prev })).map
                  (List.map e2l) := patch_map_e2l (fun x => rfl)
            rw [hp2]
            cases h2 : patch es1 e.next (fun x => { x with prev := e.prev }) with
            | none => rfl
            | some es2 =>
                simp only [Option.map_some', Option.some_bind, c2l_first]
                have hp3 : patch (es2.map e2l) s.first
                    (fun x => { x with prev := some index })
                    = (patch es2 s.first (fun x => { x with prev := some index })).map
                      (List.map e2l) := patch_map_e2l (fun x => rfl)
                rw [hp3]
                cases h3 : patch es2 s.first (fun x => { x with prev := some index }) with
                | none => rfl
                | some es3 =>
                    simp only [Option.map_some', Option.some_bind]
                    have hp4 : modifyIdx (es3.map e2l) index
                        (fun x => { x with prev := none, next := s.first })
                        = (modifyIdx es3 index
                            (fun x => { x with prev := none, next := s.first })).map
                          (List.map e2l) := modifyIdx_map_e2l (fun x => rfl)
                    rw [hp4]
                    cases h4 : modifyIdx es3 index
                        (fun x => { x with prev := none, next := s.first }) with
                    | none => rfl
                    | some es4 => rfl

theorem lru_remove_last_eq [DecidableEq K] (s : Cache K V) :
    LRU._remove_last (c2l s) = (remove_last s).map c2l := by
  unfold LRU._remove_last remove_last
  rw [show (c2l s).last = s.last from rfl]
  cases hl : s.last with
  | none => rfl
  | some t =>
      simp only [c2l_entries]
      rw [List.getElem?_map]
      cases he : s.entries[t]? with
      | none => rfl
      | some e =>
          simp only [Option.map_some', Option.some_bind, e2l_prev, e2l_key, c2l_map]
          cases hp : e.prev with
          | some new_last =>
              simp only []
              have hm : modifyIdx (s.entries.map e2l) new_last
                  (fun x => { x with next := none })
                  = (modifyIdx s.entries new_last (fun x => { x with next := none })).map
                    (List.map e2l) := modifyIdx_map_e2l (fun x => rfl)
              rw [hm]
              cases h1 : modifyIdx s.entries new_last (fun x => { x with next := none }) with
              | none => rfl
              | some es1 => rfl
          | none => rfl

theorem lru_get_eq [DecidableEq K] (s : Cache K V) (k : K) :
    LRU.get (c2l s) k = (get s k).map (fun p => (p.1, c2l p.2)) := by
  unfold LRU.get get
  rw [c2l_map]
  cases hidx : mapGet s.map k with
  | none => rfl
  | some index =>
      simp only []
      rw [lru_move_to_front_eq]
      cases hm : move_to_front s index with
      | none => rfl
      | some s1 =>
          simp only [Option.map_some', Option.some_bind, c2l_entries,
            List.getElem?_map]
          cases he : s1.entries[index]? with
          | none => rfl
          | some e => rfl

theorem lru_put_eq [DecidableEq K] (s : Cache K V) (k : K) (v : V) :
    LRU.put (c2l s) k v = (put s k v).map c2l := by
  unfold LRU.put put
  rw [c2l_map]
  cases hidx : mapGet s.map k with
  | some index =>
      simp only [c2l_entries]
      have hm : modifyIdx (s.entries.map e2l) index
          (fun x => { x with value := some v })
          = (modifyIdx s.entries index (fun x => { x with value := some v })).map
            (List.map e2l) := modifyIdx_map_e2l (fun x => rfl)
      rw [hm]
      cases h1 : modifyIdx s.entries index (fun x => { x with value := some v }) with
      | none => rfl
      | some es1 =>
          simp only [Option.map_some', Option.some_bind]
          exact lru_move_to_front_eq { s with entries := es1 } index
  | none =>
      simp only [c2l_entries, c2l_first, c2l_max, List.length_map]
      rw [lru_remove_last_eq]
      have hif : (if s.max_size ≤ s.entries.length
            then (remove_last s).map c2l else some (c2l s))
          = (if s.max_size ≤ s.entries.length then remove_last s else some s).map c2l := by
        by_cases hcap : s.max_size ≤ s.entries.length
        · rw [if_pos hcap, if_pos hcap]
        · rw [if_neg hcap, if_neg hcap, Option.map_some']
      rw [hif]
      cases hS : (if s.max_size ≤ s.entries.length then remove_last s else some s) with
      | none => rfl
      | some s1 =>
          simp only [Option.map_some', Option.some_bind, c2l_first, c2l_map, c2l_entries]
          cases hf : s1.first with
          | none =>
              simp only [Option.map_some']
              refine congrArg some ?_
              show _ = c2l _
              simp [c2l, e2l, List.map_append]
          | some old_first =>
              simp only []
              have hmap3 : s1.entries.map e2l ++
                  [({ key := k, value := some v, prev := none,
                      next := s.first } : LRU.Entry K V)]
                  = (s1.entries ++
                    [({ key := k, value := some v, prev := none,
                        next := s.first } : Entry K V)]).map e2l := by
                rw [List.map_append]
                rfl
              rw [hmap3]
              have h3c : modifyIdx ((s1.entries ++
                    [({ key := k, value := some v, prev := none,
                        next := s.first } : Entry K V)]).map e2l) s.entries.length
                  (fun x => { x with next := some old_first })
                  = (modifyIdx (s1.entries ++
                      [({ key := k, value := some v, prev := none,
                          next := s.first } : Entry K V)]) s.entries.length
                      (fun x => { x with next := some old_first })).map
                    (List.map e2l) := modifyIdx_map_e2l (fun x => rfl)
              rw [h3c]
              cases h3 : modifyIdx (s1.entries ++
                  [({ key := k, value := some v, prev := none,
                      next := s.first } : Entry K V)]) s.entries.length
                  (fun x => { x with next := some old_first }) with
              | none => rfl
              | some es3 =>
                  simp only [Option.map_some', Option.some_bind]
                  have h4c : modifyIdx (es3.map e2l) old_first
                      (fun x => { x with prev := some s.entries.length })
                      = (modifyIdx es3 old_first
                          (fun x => { x with prev := some s.entries.length })).map
                        (List.map e2l) := modifyIdx_map_e2l (fun x => rfl)
                  rw [h4c]
                  cases h4 : modifyIdx es3 old_first
                      (fun x => { x with prev := some s.entries.length }) with
                  | none => rfl
                  | some es4 =>
                      simp only [Option.map_some']
                      refine congrArg some ?_
                      show _ = c2l _
                      simp [c2l, e2l]

theorem lru_invalidate_eq [DecidableEq K] (s : Cache K V) (k : K) :
    LRU.invalidate (c2l s) k = (invalidate s k).map c2l := by
  unfold LRU.invalidate invalidate
  rw [c2l_map]
  cases hidx : mapGet s.map k with
  | none => rfl
  | some index =>
      simp only [c2l_entries]
      rw [List.getElem?_map]
      cases he : s.entries[index]? with
      | none => rfl
      | some e =>
          simp only [Option.map_some', Option.some_bind, e2l_prev, e2l_next]
          have hp1 : patch (s.entries.map e2l) e.prev
              (fun x => { x with next := e.next })
              = (patch s.entries e.prev (fun x => { x with next := e.next })).map
                (List.map e2l) := patch_map_e2l (fun x => rfl)
          rw [hp1]
          cases h1 : patch s.entries e.prev (fun x => { x with next := e.next }) with
          | none => rfl
          | some es1 =>
              simp only [Option.map_some', Option.some_bind]
              have hp2 : patch (es1.map e2l) e.next (fun x => { x with prev := e.prev })
                  = (patch es1 e.next (fun x => { x with prev := e.prev })).map
                    (List.map e2l) := patch_map_e2l (fun x => rfl)
              rw [hp2]
              cases h2 : patch es1 e.next (fun x => { x with prev := e.prev }) with
              | none => rfl
              | some es2 =>
                  simp only [Option.map_some', Option.some_bind]
                  have hp3 : modifyIdx (es2.map e2l) index
                      (fun x => { x with value := none })
                      = (modifyIdx es2 index (fun x => { x with value := none })).map
                        (List.map e2l) := modifyIdx_map_e2l (fun x => rfl)
                  rw [hp3]
                  cases h3 : modifyIdx es2 index (fun x => { x with value := none }) with
                  | none => rfl
                  | some es3 => rfl

theorem lru_step_eq [DecidableEq K] (s : Cache K V) (op : Op K V) :
    LRU.step (c2l s) op = (step s op).map c2l := by
  cases op with
  | get k =>
      show (LRU.get (c2l s) k).map Prod.snd = ((get s k).map Prod.snd).map c2l
      rw [lru_get_eq]
      cases get s k with
      | none => rfl
      | some p => rfl
  | put k v => exact lru_put_eq s k v
  | invalidate k => exact lru_invalidate_eq s k

theorem lru_run_eq [DecidableEq K] :
    ∀ (ops : List (Op K V)) (s : Cache K V),
      LRU.run (c2l s) ops = (run s ops).map c2l := by
  intro ops
  induction ops with
  | nil => exact fun s => rfl
  | cons op ops ih =>
      intro s
      show (LRU.step (c2l s) op).bind (fun s1 => LRU.run s1 ops)
        = ((step s op).bind (fun s1 => run s1 ops)).map c2l
      rw [lru_step_eq]
      cases step s op with
      | none => rfl
      | some s1 =>
          simp only [Option.map_some', Option.some_bind]
          exact ih s1

end Equivalence

section Claims

/-- C1, counterexample to the claim as stated: the claim says a `put` of a new
key evicts the tail if and only if the live (indexed) entry count is at least
`max_size`.  On the state reached by `put 1; put 2; invalidate 1` at capacity 2
the live count is 1, strictly below `max_size = 2`, and yet `put 3 30` evicts
the live key 2, because the code compares `max_size` with the arena length
(which still counts the invalidated slot), not with the live count. -/
theorem C1_counterexample :
    ((run (with_capacity 2 : Cache Nat Nat)
        [Op.put 1 10, Op.put 2 20, Op.invalidate 1]).map
      (fun s => (s.map.length, s.max_size, mapGet s.map 2))) = some (1, 2, some 1) ∧
    ((run (with_capacity 2 : Cache Nat Nat)
        [Op.put 1 10, Op.put 2 20, Op.invalidate 1]).bind
      (fun s => put s 3 30)).map (fun s => mapGet s.map 2) = some none := by
  constructor
  · decide
  · decide

/-- C2, counterexample to the claim as stated: with capacity 0 a single `put`
leaves one live entry (1 > 0); and even with capacity 1, the sequence
`put 1; put 2; invalidate 2; put 3; put 4` leaves two retrievable keys
(both 3 and 4 are indexed), because the corrupted list leaves `last = none`
while the arena keeps growing, so the eviction step finds nothing to evict. -/
theorem C2_counterexample :
    ((run (with_capacity 0 : Cache Nat Nat) [Op.put 1 10]).map
      (fun s => (s.map.length, s.max_size))) = some (1, 0) ∧
    ((run (with_capacity 1 : Cache Nat Nat)
        [Op.put 1 10, Op.put 2 20, Op.invalidate 2, Op.put 3 30, Op.put 4 40]).map
      (fun s => (s.map.length, s.max_size, mapGet s.map 3, mapGet s.map 4)))
      = some (2, 1, some 2, some 3) := by
  constructor
  · decide
  · decide

/-- C3, counterexample to the claim as stated: on the state reached by
`put 1; put 2; invalidate 2; put 3` at capacity 1 there is exactly one live
entry, so the store is at capacity; the next `put 4 40` is an overflowing put
(the arena length 3 is at least `max_size = 1`), yet it evicts nothing: both
key 3 and key 4 are live afterwards, because the corrupted state has
`last = none` and `remove_last` is a no-op. -/
theorem C3_counterexample :
    ((run (with_capacity 1 : Cache Nat Nat)
        [Op.put 1 10, Op.put 2 20, Op.invalidate 2, Op.put 3 30]).map
      (fun s => (s.map.length, s.max_size, s.last))) = some (1, 1, none) ∧
    ((run (with_capacity 1 : Cache Nat Nat)
        [Op.put 1 10, Op.put 2 20, Op.invalidate 2, Op.put 3 30]).bind
      (fun s => put s 4 40)).map
      (fun s => (s.map.length, mapGet s.map 3, mapGet s.map 4))
      = some (2, some 2, some 3) := by
  constructor
  · decide
  · decide

/-- C6 (code bug): the structural invariant of the recency list is broken on a
reachable state.  After `put 1; put 2` at capacity 1, the head is slot 1 and
the tail is slot 1, but the forward walk from the head via `next` is `[1, 0]`:
it runs past the tail into the evicted slot 0, which is absent from the index
(`map = [(2, 1)]`).  The slip is in `put`: the fresh entry's `next` field is
seeded with the pre-eviction head and is not reset when the eviction empties
the list. -/
theorem C6_stale_next_reachable_not_indexed :
    (run (with_capacity 1 : Cache Nat Nat) [Op.put 1 10, Op.put 2 20]).map
      (fun s => (s.first, s.last, walkFwd s.entries s.first (s.entries.length + 1),
        s.map))
      = some (some 1, some 1, [1, 0], [(2, 1)]) := by
  decide

/-- C8: the two implementations `Cache` (src/cache.rs) and `LRUCache`
(src/lru_cache.rs) are behaviorally equivalent.  Under the field-for-field
state translation `c2l`, construction corresponds, each of `get`, `put` and
`invalidate` succeeds on one exactly when it succeeds on the other, `get`
returns the same value, and the resulting states correspond; consequently any
sequence of API calls from `with_capacity` yields corresponding results. -/
theorem C8_cache_lru_equivalent {K V : Type} [DecidableEq K] :
    (∀ n : Nat, (LRU.with_capacity n : LRU.LRUCache K V) = c2l (with_capacity n)) ∧
    (∀ (s : Cache K V) (k : K),
      LRU.get (c2l s) k = (get s k).map (fun p => (p.1, c2l p.2))) ∧
    (∀ (s : Cache K V) (k : K) (v : V),
      LRU.put (c2l s) k v = (put s k v).map c2l) ∧
    (∀ (s : Cache K V) (k : K),
      LRU.invalidate (c2l s) k = (invalidate s k).map c2l) ∧
    (∀ (n : Nat) (ops : List (Op K V)),
      LRU.run (LRU.with_capacity n) ops = (run (with_capacity n) ops).map c2l) :=
  ⟨fun _ => rfl, lru_get_eq, lru_put_eq, lru_invalidate_eq,
    fun n ops => by
      rw [show (LRU.with_capacity n : LRU.LRUCache K V) = c2l (with_capacity n)
        from rfl]
      exact lru_run_eq ops (with_capacity n)⟩

/-- C9: no operation panics.  For every capacity (including zero) and every
sequence of `get`/`put`/`invalidate` calls starting from `with_capacity`, the
run succeeds: every internal `unwrap` and every arena index access is within
bounds, so the model never reaches the `none` (panic) outcome. -/
theorem C9_no_panic {K V : Type} [DecidableEq K] (n : Nat) (ops : List (Op K V)) :
    (run (with_capacity n : Cache K V) ops).isSome := by
  obtain ⟨s', hrun, _⟩ := run_wf ops (with_capacity n) (wf_with_capacity n)
  rw [hrun]
  rfl

/-- C1, amended: for a `put` of a new key, the current tail entry is evicted
(removed from the index, by a removal performed before the new binding is
inserted) if and only if the ARENA LENGTH (live and dead slots together) is at
least `max_size`; the live entry count plays no role.  When the list is empty
(`last = none`) no entry is evicted even if the arena is full. -/
theorem C1_eviction_iff_arena_full {K V : Type} [DecidableEq K] {s : Cache K V}
    {k : K} (v : V) (hwf : WF s = true) (hnew : mapGet s.map k = none) :
    (∀ t e, s.last = some t → s.entries[t]? = some e → mapGet s.map e.key = some t →
      ∃ s', put s k v = some s' ∧
        s'.map = mapInsert (if s.max_size ≤ s.entries.length
          then mapRemove s.map e.key else s.map) k s.entries.length ∧
        (mapGet s'.map e.key = none ↔ s.max_size ≤ s.entries.length)) ∧
    (s.last = none →
      ∃ s', put s k v = some s' ∧
        ∀ j, j ≠ k → mapGet s'.map j = mapGet s.map j) := by
  obtain ⟨s', hput, hwf', hmax', hlen', hfirst', hmap', hkvn, hkvo⟩ :=
    put_spec_new v hwf hnew
  constructor
  · intro t e hl he hket
    have hek : evictedMap s = mapRemove s.map e.key := by
      simp [evictedMap, hl, he]
    have hkne : e.key ≠ k := by
      intro hh
      rw [hh, hnew] at hket
      cases hket
    refine ⟨s', hput, by rw [hmap', hek], ?_⟩
    constructor
    · intro hnone
      by_cases hcap : s.max_size ≤ s.entries.length
      · exact hcap
      · exfalso
        rw [hmap', if_neg hcap, mapGet_mapInsert_ne _ hkne, hket] at hnone
        cases hnone
    · intro hcap
      rw [hmap', if_pos hcap, hek, mapGet_mapInsert_ne _ hkne]
      exact mapGet_mapRemove_self s.map e.key (WF_iff.mp hwf).2.2.2.2.1
  · intro hl
    have hek : evictedMap s = s.map := by
      simp [evictedMap, hl]
    have hif : (if s.max_size ≤ s.entries.length then evictedMap s else s.map)
        = s.map := by
      by_cases hcap : s.max_size ≤ s.entries.length
      · rw [if_pos hcap, hek]
      · rw [if_neg hcap]
    refine ⟨s', hput, ?_⟩
    intro j hj
    rw [hmap', hif, mapGet_mapInsert_ne _ hj]

/-- Witness for C1: on the concrete one-entry store of capacity 1 (arena
length 1, tail slot 0 holding key 1), `put 2 99` evicts key 1 because the
arena length reaches `max_size`. -/
theorem C1_eviction_iff_arena_full_witness :
    ∃ s', put sampleCache 2 99 = some s' ∧
      s'.map = mapInsert (if sampleCache.max_size ≤ sampleCache.entries.length
        then mapRemove sampleCache.map 1 else sampleCache.map) 2
        sampleCache.entries.length ∧
      (mapGet s'.map 1 = none ↔ sampleCache.max_size ≤ sampleCache.entries.length) :=
  (C1_eviction_iff_arena_full 99 (by decide) (by decide)).1 0
    { key := 1, value := some 10, prev := none, next := none }
    (by decide) (by decide) (by decide)

/-- C2, amended: the claimed bound fails in exactly two ways — capacity 0 is
exceeded by the very first `put`, and once `invalidate` appears in the
sequence the bound fails even for capacity at least 1 (see the
counterexample).  What holds is: for every capacity at least 1 and every
sequence of `get` and `put` calls (no `invalidate`), the run from
`with_capacity` succeeds and afterwards the number of live (indexed,
retrievable) entries is at most the capacity; a prefix of such a sequence is
again such a sequence, so the bound holds after each operation.  In
particular the spec's distinct-keys put-only clause holds for capacity at
least 1. -/
theorem C2_capacity_bound_no_invalidate {K V : Type} [DecidableEq K] {n : Nat}
    (ops : List (Op K V)) (hn : 1 ≤ n) (hni : ∀ op ∈ ops, isInval op = false) :
    ∃ s, run (with_capacity n) ops = some s ∧ s.max_size = n ∧
      s.map.length ≤ n := by
  obtain ⟨s, hrun, hmax, hinv⟩ := invp_run_no_inval ops (with_capacity n)
    (invp_with_capacity hn) hni
  obtain ⟨-, -, L, -, -, -, -, -, -, -, -, -, hlenm, hlemax, -⟩ := hinv
  have hmaxn : s.max_size = n := hmax
  refine ⟨s, hrun, hmaxn, ?_⟩
  rw [hlenm]
  exact hmaxn ▸ hlemax

/-- Witness for C2: a mixed get/put trace at capacity 2 with three distinct
puts ends with at most 2 live entries. -/
theorem C2_capacity_bound_no_invalidate_witness :
    (∀ op ∈ ([Op.put 1 10, Op.get 1, Op.put 2 20, Op.put 3 30, Op.get 9]
      : List (Op Nat Nat)), isInval op = false) ∧
    ∃ s, run (with_capacity 2 : Cache Nat Nat)
      [Op.put 1 10, Op.get 1, Op.put 2 20, Op.put 3 30, Op.get 9] = some s ∧
      s.max_size = 2 ∧ s.map.length ≤ 2 :=
  ⟨by decide, C2_capacity_bound_no_invalidate
    [Op.put 1 10, Op.get 1, Op.put 2 20, Op.put 3 30, Op.get 9]
    (by decide) (by decide)⟩

/-- C3, amended: a `put` of a new key that takes the eviction branch with a
live tail evicts exactly one entry, namely the current tail: the tail's key
leaves the index, every other key's binding is unchanged, and the live count
is unchanged (one out, one in).  The claim's concrete scenario holds: at
capacity 3, after `put A; put B; put C; get A`, a `put D` evicts B and not A,
so `get B` is not-found while `get A`, `get C`, `get D` return their values.
(The general clause needs the tail to be live: on corrupted reachable states an
overflowing put can evict nothing — see the counterexample.) -/
theorem C3_evicts_exactly_tail {K V : Type} [DecidableEq K] {s : Cache K V}
    {k : K} {t : Nat} {e : Entry K V} (v : V) (hwf : WF s = true)
    (hnew : mapGet s.map k = none) (hl : s.last = some t)
    (he : s.entries[t]? = some e) (hlive : mapGet s.map e.key = some t)
    (hcap : s.max_size ≤ s.entries.length) :
    (∃ s', put s k v = some s' ∧
      mapGet s'.map e.key = none ∧
      s'.map.length = s.map.length ∧
      (∀ j, j ≠ e.key → j ≠ k → mapGet s'.map j = mapGet s.map j)) ∧
    ((run (with_capacity 3 : Cache Nat Nat)
        [Op.put 1 10, Op.put 2 20, Op.put 3 30, Op.get 1, Op.put 4 40]).bind
      (fun s0 => get s0 2)).map Prod.fst = some none ∧
    ((run (with_capacity 3 : Cache Nat Nat)
        [Op.put 1 10, Op.put 2 20, Op.put 3 30, Op.get 1, Op.put 4 40]).bind
      (fun s0 => get s0 1)).map Prod.fst = some (some 10) ∧
    ((run (with_capacity 3 : Cache Nat Nat)
        [Op.put 1 10, Op.put 2 20, Op.put 3 30, Op.get 1, Op.put 4 40]).bind
      (fun s0 => get s0 3)).map Prod.fst = some (some 30) ∧
    ((run (with_capacity 3 : Cache Nat Nat)
        [Op.put 1 10, Op.put 2 20, Op.put 3 30, Op.get 1, Op.put 4 40]).bind
      (fun s0 => get s0 4)).map Prod.fst = some (some 40) := by
  refine ⟨?_, by decide, by decide, by decide, by decide⟩
  obtain ⟨s', hput, hwf', hmax', hlen', hfirst', hmap', hkvn, hkvo⟩ :=
    put_spec_new v hwf hnew
  have hek : evictedMap s = mapRemove s.map e.key := by
    simp [evictedMap, hl, he]
  have hkne : e.key ≠ k := by
    intro hh
    rw [hh, hnew] at hlive
    cases hlive
  have hmap2 : s'.map = mapInsert (mapRemove s.map e.key) k s.entries.length := by
    rw [hmap', if_pos hcap, hek]
  have hfreshRm : mapGet (mapRemove s.map e.key) k = none :=
    mapGet_mapRemove_of_none hnew
  refine ⟨s', hput, ?_, ?_, ?_⟩
  · rw [hmap2, mapGet_mapInsert_ne _ hkne]
    exact mapGet_mapRemove_self s.map e.key (WF_iff.mp hwf).2.2.2.2.1
  · rw [hmap2, length_mapInsert_fresh _ hfreshRm,
      length_mapRemove_found hlive]
  · intro j hje hjk
    rw [hmap2, mapGet_mapInsert_ne _ hjk, mapGet_mapRemove_ne _ hje]

/-- Witness for C3: on the concrete one-entry store of capacity 1, `put 2 99`
evicts exactly the tail key 1. -/
theorem C3_evicts_exactly_tail_witness :
    (∃ s', put sampleCache 2 99 = some s' ∧
      mapGet s'.map 1 = none ∧
      s'.map.length = sampleCache.map.length ∧
      (∀ j, j ≠ 1 → j ≠ 2 → mapGet s'.map j = mapGet sampleCache.map j)) ∧
    ((run (with_capacity 3 : Cache Nat Nat)
        [Op.put 1 10, Op.put 2 20, Op.put 3 30, Op.get 1, Op.put 4 40]).bind
      (fun s0 => get s0 2)).map Prod.fst = some none ∧
    ((run (with_capacity 3 : Cache Nat Nat)
        [Op.put 1 10, Op.put 2 20, Op.put 3 30, Op.get 1, Op.put 4 40]).bind
      (fun s0 => get s0 1)).map Prod.fst = some (some 10) ∧
    ((run (with_capacity 3 : Cache Nat Nat)
        [Op.put 1 10, Op.put 2 20, Op.put 3 30, Op.get 1, Op.put 4 40]).bind
      (fun s0 => get s0 3)).map Prod.fst = some (some 30) ∧
    ((run (with_capacity 3 : Cache Nat Nat)
        [Op.put 1 10, Op.put 2 20, Op.put 3 30, Op.get 1, Op.put 4 40]).bind
      (fun s0 => get s0 4)).map Prod.fst = some (some 40) :=
  @C3_evicts_exactly_tail Nat Nat _ sampleCache 2 0
    { key := 1, value := some 10, prev := none, next := none } 99
    (by decide) (by decide) (by decide) (by decide) (by decide) (by decide)

/-- C4: round trip.  From any well-formed store, immediately after
`put k v` the key `k` is indexed at the head slot (most-recently-used), and
`get k` succeeds returning exactly `v`. -/
theorem C4_put_then_get_roundtrip {K V : Type} [DecidableEq K] {s : Cache K V}
    (k : K) (v : V) (hwf : WF s = true) :
    ∃ s', put s k v = some s' ∧
      (∃ i, mapGet s'.map k = some i ∧ s'.first = some i) ∧
      ∃ s'', get s' k = some (some v, s'') := by
  cases hidx : mapGet s.map k with
  | some index =>
      obtain ⟨s', hput, hwf', hmap', hmax', hlen', hfirst', hkvi, hkvo⟩ :=
        put_spec_update v hwf hidx
      have hidx' : mapGet s'.map k = some index := by
        rw [hmap']
        exact hidx
      refine ⟨s', hput, ⟨index, hidx', hfirst'⟩, ?_⟩
      obtain ⟨e0, he0⟩ := getElem?_some_of_lt (wf_map_lt hwf hidx)
      have hkv : (s'.entries[index]?).map keyVal = some (e0.key, some v) := by
        rw [hkvi, he0]
        rfl
      obtain ⟨e', he', hkve⟩ : ∃ e', s'.entries[index]? = some e' ∧
          e'.value = some v := by
        cases hx : s'.entries[index]? with
        | none =>
            rw [hx] at hkv
            cases hkv
        | some y =>
            rw [hx] at hkv
            exact ⟨y, rfl, congrArg Prod.snd (Option.some.inj hkv)⟩
      obtain ⟨r, s'', hget, _, _, _, _, _, _, hsome⟩ := get_spec k hwf'
      obtain ⟨-, e2, he2, hre⟩ := hsome index hidx'
      obtain rfl : e' = e2 := Option.some.inj (he'.symm.trans he2)
      exact ⟨s'', by rw [hget, hre, hkve]⟩
  | none =>
      obtain ⟨s', hput, hwf', hmax', hlen', hfirst', hmap', hkvn, hkvo⟩ :=
        put_spec_new v hwf hidx
      have hidx' : mapGet s'.map k = some s.entries.length := by
        rw [hmap']
        exact mapGet_mapInsert_self ..
      refine ⟨s', hput, ⟨s.entries.length, hidx', hfirst'⟩, ?_⟩
      obtain ⟨e', he', hkve⟩ : ∃ e', s'.entries[s.entries.length]? = some e' ∧
          e'.value = some v := by
        cases hx : s'.entries[s.entries.length]? with
        | none =>
            rw [hx] at hkvn
            cases hkvn
        | some y =>
            rw [hx] at hkvn
            exact ⟨y, rfl, congrArg Prod.snd (Option.some.inj hkvn)⟩
      obtain ⟨r, s'', hget, _, _, _, _, _, _, hsome⟩ := get_spec k hwf'
      obtain ⟨-, e2, he2, hre⟩ := hsome s.entries.length hidx'
      obtain rfl : e' = e2 := Option.some.inj (he'.symm.trans he2)
      exact ⟨s'', by rw [hget, hre, hkve]⟩

/-- Witness for C4: on the empty capacity-2 store, after `put 5 7` the key 5
is the head entry and `get 5` returns 7. -/
theorem C4_put_then_get_roundtrip_witness :
    ∃ s', put (with_capacity 2 : Cache Nat Nat) 5 7 = some s' ∧
      (∃ i, mapGet s'.map 5 = some i ∧ s'.first = some i) ∧
      ∃ s'', get s' 5 = some (some 7, s'') :=
  C4_put_then_get_roundtrip 5 7 (by decide)

/-- C5: `put` on a key with a live entry overwrites the value in place and
promotes the entry: the index is entirely unchanged (no entry is created or
evicted, the live count does not grow), the arena length is unchanged, the
entry's slot becomes the head, and the slot now stores the new value. -/
theorem C5_put_existing_overwrites_in_place {K V : Type} [DecidableEq K]
    {s : Cache K V} {k : K} {index : Nat} (v : V) (hwf : WF s = true)
    (hidx : mapGet s.map k = some index) :
    ∃ s', put s k v = some s' ∧
      s'.map = s.map ∧
      s'.entries.length = s.entries.length ∧
      s'.first = some index ∧
      (s'.entries[index]?).map (fun e => e.value) = some (some v) := by
  obtain ⟨s', hput, hwf', hmap', hmax', hlen', hfirst', hkvi, hkvo⟩ :=
    put_spec_update v hwf hidx
  obtain ⟨e0, he0⟩ := getElem?_some_of_lt (wf_map_lt hwf hidx)
  have hkv : (s'.entries[index]?).map keyVal = some (e0.key, some v) := by
    rw [hkvi, he0]
    rfl
  refine ⟨s', hput, hmap', hlen', hfirst', ?_⟩
  cases hx : s'.entries[index]? with
  | none =>
      rw [hx] at hkv
      cases hkv
  | some y =>
      rw [hx] at hkv
      rw [Option.map_some']
      exact congrArg some (congrArg Prod.snd (Option.some.inj hkv))

/-- Witness for C5: overwriting key 1 on the concrete one-entry store keeps
the index unchanged and stores the new value at the same slot. -/
theorem C5_put_existing_overwrites_in_place_witness :
    ∃ s', put sampleCache 1 77 = some s' ∧
      s'.map = sampleCache.map ∧
      s'.entries.length = sampleCache.entries.length ∧
      s'.first = some 0 ∧
      (s'.entries[0]?).map (fun e => e.value) = some (some 77) :=
  C5_put_existing_overwrites_in_place 77 (by decide) (by decide)

/-- C7: for an absent key, `get` returns not-found and `invalidate` is a
no-op, both leaving the state unchanged; for a present key, `invalidate`
removes it from the index, after which `get` returns not-found and a repeated
`invalidate` is a no-op. -/
theorem C7_absent_noop_present_invalidate {K V : Type} [DecidableEq K]
    {s : Cache K V} (k : K) (hwf : WF s = true) :
    (mapGet s.map k = none → get s k = some (none, s) ∧ invalidate s k = some s) ∧
    (∀ index, mapGet s.map k = some index →
      ∃ s', invalidate s k = some s' ∧
        mapGet s'.map k = none ∧
        get s' k = some (none, s') ∧
        invalidate s' k = some s') := by
  constructor
  · intro h
    exact ⟨by simp [get, h], invalidate_spec_absent h⟩
  · intro index hidx
    obtain ⟨e, s', he, hinv, hwf', hmap', _⟩ := invalidate_spec_present hwf hidx
    have hnone : mapGet s'.map k = none := by
      rw [hmap']
      exact mapGet_mapRemove_self s.map k (WF_iff.mp hwf).2.2.2.2.1
    exact ⟨s', hinv, hnone, by simp [get, hnone], invalidate_spec_absent hnone⟩

/-- Witness for C7: on the two-entry store, key 9 is absent (no-ops) and
key 2 is present (invalidate removes it, then get misses and a second
invalidate is a no-op). -/
theorem C7_absent_noop_present_invalidate_witness :
    (mapGet sampleCache2.map 9 = none →
      get sampleCache2 9 = some (none, sampleCache2) ∧
      invalidate sampleCache2 9 = some sampleCache2) ∧
    (∀ index, mapGet sampleCache2.map 9 = some index →
      ∃ s', invalidate sampleCache2 9 = some s' ∧
        mapGet s'.map 9 = none ∧
        get s' 9 = some (none, s') ∧
        invalidate s' 9 = some s') :=
  C7_absent_noop_present_invalidate 9 (by decide)

/-- C10: frame property of `invalidate` on a present key `k` at slot `index`
holding entry `e`: every other key keeps its binding and its slot keeps its
key and value; the head (resp. tail) changes only if it was `k`'s slot, in
which case it moves to `e`'s successor (resp. predecessor); every slot other
than `k`'s slot and its two neighbors is bit-for-bit unchanged; and the two
neighbors are patched around the detached slot (`prev` neighbor's `next`
becomes `e.next`, `next` neighbor's `prev` becomes `e.prev`), preserving the
relative recency order of the remaining entries. -/
theorem C10_invalidate_frame {K V : Type} [DecidableEq K] {s : Cache K V}
    {k : K} {index : Nat} (hwf : WF s = true)
    (hidx : mapGet s.map k = some index) :
    ∃ e s', s.entries[index]? = some e ∧ invalidate s k = some s' ∧
      (∀ j, j ≠ k → mapGet s'.map j = mapGet s.map j) ∧
      (∀ j i', j ≠ k → mapGet s.map j = some i' →
        (s'.entries[i']?).map keyVal = (s.entries[i']?).map keyVal) ∧
      s'.first = (if some index = s.first then e.next else s.first) ∧
      s'.last = (if some index = s.last then e.prev else s.last) ∧
      (∀ j, j ≠ index → some j ≠ e.prev → some j ≠ e.next →
        s'.entries[j]? = s.entries[j]?) ∧
      (∀ q, e.prev = some q → q ≠ index → e.prev ≠ e.next →
        s'.entries[q]? = (s.entries[q]?).map (fun x => { x with next := e.next })) ∧
      (∀ q, e.next = some q → q ≠ index → e.prev ≠ e.next →
        s'.entries[q]? = (s.entries[q]?).map (fun x => { x with prev := e.prev })) := by
  obtain ⟨e, s', he, hinv, hwf', hmap', hmax', hlen', hfirst', hlast', hkvidx,
    hkvOther, huntouched, hpatchPrev, hpatchNext⟩ := invalidate_spec_present hwf hidx
  refine ⟨e, s', he, hinv, ?_, ?_, hfirst', hlast', huntouched, hpatchPrev,
    hpatchNext⟩
  · intro j hj
    rw [hmap']
    exact mapGet_mapRemove_ne _ hj
  · intro j i' hj hji
    have hii : i' ≠ index := by
      intro hh
      have := List.inj_on_of_nodup_map (WF_iff.mp hwf).2.2.2.2.2
        (mem_of_mapGet_eq_some hji) (mem_of_mapGet_eq_some hidx)
        (show (j, i').2 = (k, index).2 from hh)
      exact hj (congrArg Prod.fst this)
    exact hkvOther i' hii

/-- Witness for C10: invalidating the head key 2 of the two-entry store leaves
key 1's binding, key, and value unchanged and patches around the detached
slot. -/
theorem C10_invalidate_frame_witness :
    ∃ e s', sampleCache2.entries[1]? = some e ∧
      invalidate sampleCache2 2 = some s' ∧
      (∀ j, j ≠ 2 → mapGet s'.map j = mapGet sampleCache2.map j) ∧
      (∀ j i', j ≠ 2 → mapGet sampleCache2.map j = some i' →
        (s'.entries[i']?).map keyVal = (sampleCache2.entries[i']?).map keyVal) ∧
      s'.first = (if some 1 = sampleCache2.first then e.next
        else sampleCache2.first) ∧
      s'.last = (if some 1 = sampleCache2.last then e.prev
        else sampleCache2.last) ∧
      (∀ j, j ≠ 1 → some j ≠ e.prev → some j ≠ e.next →
        s'.entries[j]? = sampleCache2.entries[j]?) ∧
      (∀ q, e.prev = some q → q ≠ 1 → e.prev ≠ e.next →
        s'.entries[q]? = (sampleCache2.entries[q]?).map
          (fun x => { x with next := e.next })) ∧
      (∀ q, e.next = some q → q ≠ 1 → e.prev ≠ e.next →
        s'.entries[q]? = (sampleCache2.entries[q]?).map
          (fun x => { x with prev := e.prev })) :=
  C10_invalidate_frame (by decide) (by decide)

end Claims

end LruSpec
